import Mathlib

/-!
# MinKV — formal model and verification of spec claims

A shallow embedding of the MinKV key-value store (C++ sources under `src/`):
the write-ahead-log record framing (`src/persistence/wal.cpp`), the LRU shard
(`src/db/lru_cache.h`), the sharded cache with persistence and LSN counter
(`src/core/sharded_cache.h`), the checkpoint manager's recovery path
(`src/persistence/checkpoint_manager.h`), the group-commit batch processor
(`src/base/group_commit.cpp` with `src/base/append_file.cpp`), and the vector
Top-K search (`ShardedCache::vectorSearch` with `src/vector/vector_ops.h`).

Byte strings (`std::string` contents, WAL file contents) are modelled as
`List Nat` with each element a byte value; machine integers are `Nat`/`Int`
with explicit `% 2^w` where C++ performs a truncating cast.  The millisecond
clock is threaded as an explicit `Nat` argument.
-/

set_option maxHeartbeats 1000000
set_option linter.unusedSectionVars false

namespace MinKV

/-! ## Byte-level WAL record framing (src/persistence/wal.cpp)

All multi-byte integers are little-endian (x86 memcpy of `uint32_t`/`int64_t`).
-/

/-- The 4 little-endian bytes of a `uint32_t` value (a cast truncates mod 2^32). -/
def le32 (n : Nat) : List Nat :=
  [n % 256, n / 256 % 256, n / 65536 % 256, n / 16777216 % 256]

/-- The 8 little-endian bytes of a `uint64_t` value. -/
def le64 (n : Nat) : List Nat :=
  [n % 256, n / 256 % 256, n / 65536 % 256, n / 16777216 % 256,
   n / 4294967296 % 256, n / 1099511627776 % 256,
   n / 281474976710656 % 256, n / 72057594037927936 % 256]

/-- Read a little-endian `uint32_t` from the first 4 bytes of a buffer
(a raw pointer read; missing bytes default to 0, which matters only on
ill-formed input the C++ would read out of bounds). -/
def dec32 (l : List Nat) : Nat :=
  l.getD 0 0 + 256 * l.getD 1 0 + 65536 * l.getD 2 0 + 16777216 * l.getD 3 0

/-- Read a little-endian `uint64_t` from the first 8 bytes of a buffer. -/
def dec64 (l : List Nat) : Nat :=
  l.getD 0 0 + 256 * l.getD 1 0 + 65536 * l.getD 2 0 + 16777216 * l.getD 3 0 +
    4294967296 * l.getD 4 0 + 1099511627776 * l.getD 5 0 +
    281474976710656 * l.getD 6 0 + 72057594037927936 * l.getD 7 0

/-- Read an `int64_t` (two's complement) from the first 8 bytes of a buffer. -/
def decInt64 (l : List Nat) : Int :=
  if dec64 l < 9223372036854775808 then (dec64 l : Int)
  else (dec64 l : Int) - 18446744073709551616

/-- WAL log entry (`struct LogEntry`, src/db/wal.h).  `op` is the raw
`OpType` byte: PUT = 1, DELETE = 2, SNAPSHOT = 3.  Key and value are byte
strings; the timestamp is `int64_t` milliseconds.  The checksum is computed
on demand, not stored in the struct. -/
structure LogEntry where
  op : Nat
  key : List Nat
  value : List Nat
  timestamp : Int
deriving DecidableEq

/-- `LogEntry::compute_checksum`: fold `c := c * 31 + byte` over key ++ value
in `uint32_t` arithmetic (wraps mod 2^32). -/
def computeChecksum (key value : List Nat) : Nat :=
  (key ++ value).foldl (fun c b => (c * 31 + b) % 4294967296) 0

/-- The payload bytes of a serialized entry (everything after the 4-byte size
prefix): `[op(1)][keylen(4)][key][vallen(4)][val][ts(8)][checksum(4)]`
(`WriteAheadLog::serialize_entry`, src/persistence/wal.cpp lines 242-301). -/
def payload (e : LogEntry) : List Nat :=
  [e.op % 256] ++ le32 e.key.length ++ e.key ++ le32 e.value.length ++ e.value ++
    le64 (e.timestamp % 18446744073709551616).toNat ++
    le32 (computeChecksum e.key e.value)

/-- `WriteAheadLog::serialize_entry`: the 4-byte little-endian size prefix
(`uint32_t` cast of the payload byte count) followed by the payload. -/
def serializeEntry (e : LogEntry) : List Nat :=
  le32 (payload e).length ++ payload e

/-- `WriteAheadLog::deserialize_entry` (src/persistence/wal.cpp lines 303-331),
reading from a raw pointer at the start of a record's payload: op byte, key
length, key, value length, value, `int64_t` timestamp.  The trailing checksum
is read into a local but never verified (the C++ comment says so explicitly). -/
def deserializeEntry (data : List Nat) : LogEntry :=
  let op := data.getD 0 0
  let klen := dec32 (data.drop 1)
  let key := (data.drop 5).take klen
  let vlen := dec32 (data.drop (5 + klen))
  let value := (data.drop (9 + klen)).take vlen
  let ts := decInt64 (data.drop (9 + klen + vlen))
  { op := op, key := key, value := value, timestamp := ts }

/-- The scan loop of `WriteAheadLog::read_all`, with an explicit fuel bound so
the recursion is structural (each iteration consumes at least 4 bytes, so
`data.length` iterations always suffice; see `readAllGo_eq_of_le`). -/
def readAllGo : Nat → List Nat → List LogEntry
  | 0, _ => []
  | fuel + 1, data =>
    if data.length < 4 then []
    else
      let sz := dec32 data
      if data.length < 4 + sz then []
      else deserializeEntry (data.drop 4) :: readAllGo fuel (data.drop (4 + sz))

/-- `WriteAheadLog::read_all` (src/persistence/wal.cpp lines 119-153): scan
the file bytes from the beginning; stop when fewer than 4 bytes remain for the
size prefix, or when the declared record size overruns the remaining bytes.
No checksum is ever checked. -/
def readAll (data : List Nat) : List LogEntry :=
  readAllGo data.length data

/-- Any fuel of at least `data.length` iterations gives the same scan result. -/
theorem readAllGo_eq_of_le : ∀ (f1 f2 : Nat) (data : List Nat),
    data.length ≤ f1 → data.length ≤ f2 → readAllGo f1 data = readAllGo f2 data := by
  intro f1
  induction f1 with
  | zero =>
    intro f2 data h1 h2
    cases f2 with
    | zero => rfl
    | succ m =>
      have : data.length < 4 := by omega
      simp [readAllGo, this]
  | succ n ih =>
    intro f2 data h1 h2
    cases f2 with
    | zero =>
      have : data.length < 4 := by omega
      simp [readAllGo, this]
    | succ m =>
      by_cases h4 : data.length < 4
      · simp [readAllGo, h4]
      · by_cases hsz : data.length < 4 + dec32 data
        · simp [readAllGo, h4, hsz]
        · have hrec : (data.drop (4 + dec32 data)).length ≤ n ∧
              (data.drop (4 + dec32 data)).length ≤ m := by
            simp only [List.length_drop]
            omega
          simp only [readAllGo, h4, if_false, hsz, if_neg]
          rw [ih m _ hrec.1 hrec.2]

/-- An entry the C++ can serialize and round-trip exactly: the op fits a byte,
the whole payload fits the `uint32_t` size prefix, and the timestamp is a
representable `int64_t`. -/
def wfEntry (e : LogEntry) : Prop :=
  e.op < 256 ∧ 21 + e.key.length + e.value.length < 4294967296 ∧
    -9223372036854775808 ≤ e.timestamp ∧ e.timestamp < 9223372036854775808

/-! ## The LRU shard (template `LruCache<K, V>`, src/db/lru_cache.h)

The C++ shard keeps a doubly-linked `cache_list_` of nodes (head = most
recently promoted) and a hashmap `map_` from key to a list iterator.  We model
the list directly and track the hashmap's key set in `mapKeys` (each map entry
holds an iterator to the unique list node with that key, so a map lookup is a
search of the list by key); both structures are updated exactly where the C++
updates them.  Only the statistics counters the claims mention are carried.
-/

/-- A `cache_list_` node: key, value, and absolute expiry time in ms
(`expiry_time_ms`; 0 = never expires). -/
structure Node (K V : Type) where
  key : K
  value : V
  expiry : Nat
deriving DecidableEq

/-- State of one `LruCache<K, V>` shard. -/
structure LruCache (K V : Type) where
  capacity : Nat
  /-- `cache_list_`, head = most recently promoted. -/
  list : List (Node K V)
  /-- The key set of `map_` (key → list iterator). -/
  mapKeys : List K
  hits : Nat
  misses : Nat
  expired : Nat
  evictions : Nat
  puts : Nat
  removes : Nat
  /-- `last_promote_time_ms_` for the lazy-LRU promotion window. -/
  lastPromote : Nat
deriving DecidableEq

/-- A freshly constructed shard of the given capacity. -/
def emptyLru {K V : Type} (cap : Nat) : LruCache K V :=
  ⟨cap, [], [], 0, 0, 0, 0, 0, 0, 0⟩

/-- `LruCache::is_expired` (src/db/lru_cache.h lines 271-277): an entry with
`expiry_time_ms = 0` never expires; otherwise it is expired when the current
time is strictly greater than the deadline. -/
def isExpired {K V : Type} (n : Node K V) (now : Nat) : Bool :=
  if n.expiry = 0 then false else decide (n.expiry < now)

/-- The map lookup predicate: the node whose key is `k`. -/
def keyIs {K V : Type} [DecidableEq K] (k : K) : Node K V → Bool :=
  fun n => decide (n.key = k)

/-- The expiry deadline `put` stores (src/db/lru_cache.h lines 362-365):
`now + ttl_ms` when `ttl_ms > 0`, else 0 (never expires). -/
def putExpiry (ttl : Int) (now : Nat) : Nat :=
  if 0 < ttl then now + ttl.toNat else 0

/-- `LruCache::get` (src/db/lru_cache.h lines 285-356), single-threaded
semantics of the merged fast/slow paths: a missing key is a miss; an expired
node is erased from both structures, counting `expired` and `misses`; a live
node is returned, spliced to the front only when the last promotion is more
than 1000 ms old (lazy LRU). -/
def lruGet {K V : Type} [DecidableEq K] (c : LruCache K V) (k : K) (now : Nat) :
    Option V × LruCache K V :=
  match c.list.find? (keyIs k) with
  | none => (none, { c with misses := c.misses + 1 })
  | some n =>
    if isExpired n now then
      (none, { c with list := c.list.eraseP (keyIs k),
                      mapKeys := c.mapKeys.erase k,
                      expired := c.expired + 1,
                      misses := c.misses + 1 })
    else if c.lastPromote + 1000 < now then
      (some n.value, { c with list := n :: c.list.eraseP (keyIs k),
                              lastPromote := now,
                              hits := c.hits + 1 })
    else
      (some n.value, { c with hits := c.hits + 1 })

/-- `LruCache::put` (src/db/lru_cache.h lines 359-415): an existing key is
overwritten in place and spliced to the front; a new key when
`map_.size() >= capacity_` evicts the tail node from both structures before
the front insertion; otherwise it is a plain front insertion.  (With capacity
0 and an empty list the C++ decrements the end iterator of an empty
`std::list`, which is undefined behavior; that branch is modelled as a plain
insertion and excluded by the `0 < capacity` hypotheses of the theorems.) -/
def lruPut {K V : Type} [DecidableEq K] (c : LruCache K V) (k : K) (v : V)
    (ttl : Int) (now : Nat) : LruCache K V :=
  let expiry : Nat := putExpiry ttl now
  match c.list.find? (keyIs k) with
  | some _ =>
    { c with list := ⟨k, v, expiry⟩ :: c.list.eraseP (keyIs k),
             puts := c.puts + 1 }
  | none =>
    if c.capacity ≤ c.mapKeys.length then
      match c.list.getLast? with
      | some tailNode =>
        { c with list := ⟨k, v, expiry⟩ :: c.list.dropLast,
                 mapKeys := (k :: c.mapKeys).erase tailNode.key,
                 evictions := c.evictions + 1,
                 puts := c.puts + 1 }
      | none =>
        { c with list := [⟨k, v, expiry⟩], mapKeys := k :: c.mapKeys,
                 puts := c.puts + 1 }
    else
      { c with list := ⟨k, v, expiry⟩ :: c.list, mapKeys := k :: c.mapKeys,
               puts := c.puts + 1 }

/-- `LruCache::remove` (src/db/lru_cache.h lines 418-430): erase from the
list and the map and count `removes` when present; the expiry field is never
consulted. -/
def lruRemove {K V : Type} [DecidableEq K] (c : LruCache K V) (k : K) :
    Bool × LruCache K V :=
  match c.list.find? (keyIs k) with
  | none => (false, c)
  | some _ =>
    (true, { c with list := c.list.eraseP (keyIs k),
                    mapKeys := c.mapKeys.erase k,
                    removes := c.removes + 1 })

/-- `LruCache::clear` (src/db/lru_cache.h lines 498-502). -/
def lruClear {K V : Type} (c : LruCache K V) : LruCache K V :=
  { c with list := [], mapKeys := [] }

/-- `LruCache::cleanup_expired_keys` (src/db/lru_cache.h lines 505-524): walk
the list, erasing every expired node from both structures and counting each
in `expired`; survivors keep their order. -/
def lruCleanup {K V : Type} [DecidableEq K] (c : LruCache K V) (now : Nat) :
    LruCache K V :=
  let ex := c.list.filter (fun n => isExpired n now)
  { c with list := c.list.filter (fun n => !isExpired n now),
           mapKeys := ex.foldl (fun mk n => mk.erase n.key) c.mapKeys,
           expired := c.expired + ex.length }

/-- The key → value mapping a shard presents through the list/map structures
(the lookup `map_.find(key)` dereferenced; expiry ignored — recovery stores
every entry with expiry 0). -/
def shardLookup {K V : Type} [DecidableEq K] (c : LruCache K V) (k : K) :
    Option V :=
  (c.list.find? (keyIs k)).map Node.value

/-- Shard structural invariant maintained by the C++ (spec I1-I3): the
hashmap keys are exactly the list keys (as a multiset), list keys are
pairwise distinct, and the list fits the capacity. -/
def lruWf {K V : Type} (c : LruCache K V) : Prop :=
  c.mapKeys.Perm (c.list.map Node.key) ∧ (c.list.map Node.key).Nodup ∧
    c.list.length ≤ c.capacity

/-- The size half of the shard invariant (the C6 claim):
`|hashmap| = |recency list| ≤ capacity`. -/
def sizeOk {K V : Type} (c : LruCache K V) : Prop :=
  c.mapKeys.length = c.list.length ∧ c.list.length ≤ c.capacity

/-! ## The sharded cache (template `ShardedCache<K, V>`, src/core/sharded_cache.h)

Instantiated at byte-string keys and values (the repo uses
`ShardedCache<std::string, std::string>`; `Serializer<std::string>` is the
identity).  The WAL object carries its in-memory buffer and the file bytes;
`read_all` reads only the file.  `std::hash` is an arbitrary parameter.
-/

/-- A C++ `std::string` payload: a byte sequence. -/
abbrev ByteStr := List Nat

/-- The state of a `WriteAheadLog`: buffered bytes, file bytes, buffer size. -/
structure WalState where
  buffer : ByteStr
  file : ByteStr
  bufcap : Nat
deriving DecidableEq

/-- `WriteAheadLog::append` → `write_to_buffer` (src/persistence/wal.cpp lines
73-92): serialize the entry; if it would overflow the buffer, flush the buffer
to the file first; then append the serialized bytes to the buffer. -/
def walAppend (w : WalState) (e : LogEntry) : WalState :=
  let s := serializeEntry e
  let w1 := if w.bufcap < w.buffer.length + s.length then
      { w with file := w.file ++ w.buffer, buffer := [] }
    else w
  { w1 with buffer := w1.buffer ++ s }

/-- `WriteAheadLog::flush`: drain the buffer to the file. -/
def walFlush (w : WalState) : WalState :=
  { w with file := w.file ++ w.buffer, buffer := [] }

/-- State of a `ShardedCache<std::string, std::string>` with the pieces the
claims observe: the shards, the persistence flag (`persistence_enabled_` with
a live `wal_`), the WAL, `global_lsn_` (initialized to 1), and the disabled
shard set of the health tracker. -/
structure SCState where
  shards : List (LruCache ByteStr ByteStr)
  persistence : Bool
  wal : WalState
  globalLsn : Nat
  disabled : List Nat
deriving DecidableEq

/-- `shards_[i]` (always in range in the C++; out-of-range defaults are
irrelevant under the theorems' side conditions). -/
def scShard (s : SCState) (i : Nat) : LruCache ByteStr ByteStr :=
  s.shards.getD i (emptyLru 0)

/-- `ShardedCache::put` (src/core/sharded_cache.h lines 304-345): route by
`hash(key) % shard_count`; a disabled shard silently drops the write; the
shard is mutated in memory, then, when persistence is enabled, a PUT record
(op 1, key, value, current ms) is appended to the WAL.  `next_lsn()` is not
called and the record carries no LSN field. -/
def scPut (hash : ByteStr → Nat) (s : SCState) (k v : ByteStr) (ttl : Int)
    (now : Nat) : SCState :=
  let idx := hash k % s.shards.length
  if s.disabled.contains idx then s
  else
    let s1 := { s with shards := s.shards.set idx (lruPut (scShard s idx) k v ttl now) }
    if s.persistence then { s1 with wal := walAppend s1.wal ⟨1, k, v, (now : Int)⟩ }
    else s1

/-- `ShardedCache::remove` (src/core/sharded_cache.h lines 348-390): like
`put`; the DELETE record (op 2, empty value) is logged only when the key was
present in memory. -/
def scRemove (hash : ByteStr → Nat) (s : SCState) (k : ByteStr) (now : Nat) :
    Bool × SCState :=
  let idx := hash k % s.shards.length
  if s.disabled.contains idx then (false, s)
  else
    let r := lruRemove (scShard s idx) k
    let s1 := { s with shards := s.shards.set idx r.2 }
    (r.1,
      if r.1 && s.persistence then { s1 with wal := walAppend s1.wal ⟨2, k, [], (now : Int)⟩ }
      else s1)

/-- `ShardedCache::next_lsn` (src/core/sharded_cache.h lines 158-160):
`fetch_add(1)` — returns the previous counter value and increments it. -/
def scNextLsn (s : SCState) : Nat × SCState :=
  (s.globalLsn, { s with globalLsn := s.globalLsn + 1 })

/-- `ShardedCache::current_lsn` (lines 170-173): `next > 0 ? next - 1 : 0`,
which is truncated subtraction. -/
def scCurrentLsn (s : SCState) : Nat :=
  s.globalLsn - 1

/-- The state after `i` successive `next_lsn()` calls. -/
def scNextLsnIter (s : SCState) : Nat → SCState
  | 0 => s
  | n + 1 => (scNextLsn (scNextLsnIter s n)).2

/-- The value returned by the `(i+1)`-th successive `next_lsn()` call. -/
def lsnReturned (s : SCState) (i : Nat) : Nat :=
  (scNextLsn (scNextLsnIter s i)).1

/-- One WAL-replay step of `ShardedCache::recover_from_disk`
(src/core/sharded_cache.h lines 521-543): a PUT record is re-applied directly
through the shard (no WAL append — "恢复时不写WAL" — and TTL 0); a DELETE
record removes; any other op is skipped. -/
def scRecoverStep (hash : ByteStr → Nat) (now : Nat) (s : SCState)
    (e : LogEntry) : SCState :=
  if e.op = 1 then
    let idx := hash e.key % s.shards.length
    { s with shards := s.shards.set idx (lruPut (scShard s idx) e.key e.value 0 now) }
  else if e.op = 2 then
    let idx := hash e.key % s.shards.length
    { s with shards := s.shards.set idx (lruRemove (scShard s idx) e.key).2 }
  else s

/-- `ShardedCache::recover_from_disk`: replay `wal_->read_all()` — the
records decoded from the WAL file bytes — in order. -/
def scRecoverFromDisk (hash : ByteStr → Nat) (now : Nat) (s : SCState) : SCState :=
  (readAll s.wal.file).foldl (scRecoverStep hash now) s

/-- Step 3 of `SimpleCheckpointManager::recover_from_disk`
(src/persistence/checkpoint_manager.h lines 428-431): every snapshot entry is
loaded through `cache_->put(key, value, 0)` — the ordinary logging mutator
`ShardedCache::put`, not a logged-less restore path. -/
def cmRestoreSnapshot (hash : ByteStr → Nat) (now : Nat) (s : SCState)
    (snap : List (ByteStr × ByteStr)) : SCState :=
  snap.foldl (fun st kv => scPut hash st kv.1 kv.2 0 now) s

/-- The key → value mapping the store presents: look the key up in its shard. -/
def scMapping (hash : ByteStr → Nat) (s : SCState) (k : ByteStr) : Option ByteStr :=
  shardLookup (scShard s (hash k % s.shards.length)) k

/-- Modelled from the spec (the reference side of the C4 refinement):
applying one WAL record to a reference map — PUT inserts or overwrites the
key, DELETE erases it. -/
def refStep (m : ByteStr → Option ByteStr) (e : LogEntry) : ByteStr → Option ByteStr :=
  if e.op = 1 then fun q => if q = e.key then some e.value else m q
  else if e.op = 2 then fun q => if q = e.key then none else m q
  else m

/-- Modelled from the spec: the reference map after applying the records in
order to the empty map. -/
def refApply (es : List LogEntry) : ByteStr → Option ByteStr :=
  es.foldl refStep (fun _ => none)

/-- Simulation invariant between the shard array during WAL replay and the
reference map `m`: shard `i` holds capacity `caps[i]`, keeps distinct list
keys matched by the hashmap key set, contains only keys routed to it that
occur among the replayed PUT keys `D`, and presents exactly the restriction
of `m` to its keys. -/
def scRecoverInv (hash : ByteStr → Nat) (caps : List Nat) (D : List ByteStr)
    (shards : List (LruCache ByteStr ByteStr)) (m : ByteStr → Option ByteStr) : Prop :=
  shards.length = caps.length ∧
  ∀ i, i < caps.length →
    (shards.getD i (emptyLru 0)).capacity = caps.getD i 0 ∧
    ((shards.getD i (emptyLru 0)).list.map Node.key).Nodup ∧
    (shards.getD i (emptyLru 0)).mapKeys.Perm
      ((shards.getD i (emptyLru 0)).list.map Node.key) ∧
    (∀ q ∈ (shards.getD i (emptyLru 0)).list.map Node.key,
      hash q % caps.length = i ∧ q ∈ D) ∧
    (∀ q, shardLookup (shards.getD i (emptyLru 0)) q =
      if hash q % caps.length = i then m q else none)

/-! ## Group commit (`GroupCommitManager::processBatch`,
src/base/group_commit.cpp lines 159-219)

A batch is the FIFO drain of the pending-request queue: the list of each
request's bytes, in the order the requests entered.  `file_->append` is
`AppendFile::append`, i.e. `writeUnlocked` (src/base/append_file.cpp lines
54-89): a loop of `write` calls that either puts all the bytes in the file
or, on a non-EINTR error, throws after some prefix of them was written.
The per-call outcome is abstracted by an oracle: `outcome i = none` means
the `i`-th append of the batch writes fully, `outcome i = some p` means it
throws with only its first `p` bytes written.  `syncOk` abstracts whether
`file_->sync()` would throw. -/

/-- The append loop inside the `try` block of `processBatch` (lines
186-190): requests' bytes are appended in batch order; the first throwing
append exits the loop with its written prefix left in the file, later
requests writing nothing.  Returns the file contents and whether the loop
completed without an exception. -/
def appendLoop (outcome : Nat → Option Nat) :
    Nat → List ByteStr → ByteStr → ByteStr × Bool
  | _, [], file => (file, true)
  | i, d :: rest, file =>
    match outcome i with
    | none => appendLoop outcome (i + 1) rest (file ++ d)
    | some p => (file ++ d.take p, false)

/-- `GroupCommitManager::processBatch`: an empty queue returns at once;
otherwise every request's bytes are appended in order, one `sync` runs, and
the single resulting success boolean — false as soon as any append or the
sync threw — is passed to every request's callback.  Returns the file
contents, the success boolean, and the list of booleans delivered to the
callbacks, in batch order. -/
def processBatch (file : ByteStr) (batch : List ByteStr)
    (outcome : Nat → Option Nat) (syncOk : Bool) :
    ByteStr × Bool × List Bool :=
  if batch.isEmpty then (file, true, [])
  else
    let r := appendLoop outcome 0 batch file
    let success := r.2 && syncOk
    (r.1, success, batch.map (fun _ => success))

/-! ## Vector search (`ShardedCache::vectorSearch`,
src/core/sharded_cache.h lines 626-708, and `VectorOps`,
src/vector/vector_ops.h)

A shard's contribution is its `get_all` listing with each stored value
already decoded by `VectorOps::DeserializeCopy` into the float vector it
holds (the empty list when the raw size is not a multiple of 4).  Float
arithmetic is modelled over exact rationals with the scalar reference
semantics `VectorOps::L2DistanceSquare_Ref`; spec §9 requires the AVX2 path
used at src/core/sharded_cache.h line 659 to agree with the scalar
reference up to float tolerance, and exact arithmetic abstracts that
rounding.  The `std::priority_queue` max-heap on distance is modelled as a
descending-sorted list whose head is the top; among equal distances the
earlier-pushed pair stays nearer the top, a deterministic refinement of the
heap's unspecified tie order. -/

/-- `VectorOps::L2DistanceSquare_Ref` (src/vector/vector_ops.h lines
77-84): the sum of squared coordinate differences over the common indices
(the caller only invokes it at equal dimension). -/
def sqDist (a b : List ℚ) : ℚ :=
  (a.zip b).foldl (fun s p => s + (p.1 - p.2) * (p.1 - p.2)) 0

/-- Insertion into the descending-sorted list modelling the max-heap: the
new pair sinks below every held pair of greater-or-equal distance. -/
def insertDesc (x : String × ℚ) : List (String × ℚ) → List (String × ℚ)
  | [] => [x]
  | y :: ys => if y.2 < x.2 then x :: y :: ys else y :: insertDesc x ys

/-- A bounded heap push — `heap.push(...); if (heap.size() > k)
heap.pop();` — insert, then drop the top when the bound is exceeded. -/
def hpush (k : Nat) (h : List (String × ℚ)) (x : String × ℚ) :
    List (String × ℚ) :=
  if k < (insertDesc x h).length then (insertDesc x h).tail
  else insertDesc x h

/-- The per-entry body of a shard's search loop (lines 650-664): an entry
whose decoded vector is empty or whose dimension differs from the query's
is skipped; otherwise its distance to the query is pushed on the local
bounded heap. -/
def shardStep (query : List ℚ) (k : Nat) (h : List (String × ℚ))
    (e : String × List ℚ) : List (String × ℚ) :=
  if e.2.isEmpty || e.2.length != query.length then h
  else hpush k h (e.1, sqDist query e.2)

/-- One shard's local search (lines 644-671): fold the loop body over the
shard's entries, then drain the heap top-first — which is exactly the
descending list itself. -/
def shardTopK (query : List ℚ) (k : Nat)
    (entries : List (String × List ℚ)) : List (String × ℚ) :=
  entries.foldl (shardStep query k) []

/-- The global merge (lines 681-694): each shard's drained results are
pushed, in order, onto a global bounded heap. -/
def vsGlobal (query : List ℚ) (k : Nat)
    (shards : List (List (String × List ℚ))) : List (String × ℚ) :=
  shards.foldl (fun g sh => (shardTopK query k sh).foldl (hpush k) g) []

/-- `ShardedCache::vectorSearch` (lines 697-705): drain the global heap
top-first collecting keys — the descending list's keys — then reverse, so
the keys come out in ascending distance order. -/
def vectorSearch (query : List ℚ) (k : Nat)
    (shards : List (List (String × List ℚ))) : List String :=
  ((vsGlobal query k shards).map Prod.fst).reverse

/-! ### Framing round-trip lemmas -/

theorem le32_length (n : Nat) : (le32 n).length = 4 := rfl

theorem le64_length (n : Nat) : (le64 n).length = 8 := rfl

theorem dec32_le32_append (n : Nat) (rest : List Nat) :
    dec32 (le32 n ++ rest) = n % 4294967296 := by
  simp only [le32, dec32, List.cons_append, List.nil_append, List.getD_cons_zero,
    List.getD_cons_succ]
  omega

theorem dec64_le64_append (n : Nat) (rest : List Nat) :
    dec64 (le64 n ++ rest) = n % 18446744073709551616 := by
  simp only [le64, dec64, List.cons_append, List.nil_append, List.getD_cons_zero,
    List.getD_cons_succ]
  omega

theorem decInt64_le64_append (t : Int) (rest : List Nat)
    (h1 : -9223372036854775808 ≤ t) (h2 : t < 9223372036854775808) :
    decInt64 (le64 (t % 18446744073709551616).toNat ++ rest) = t := by
  unfold decInt64
  rw [dec64_le64_append]
  split <;> omega

theorem payload_length (e : LogEntry) :
    (payload e).length = 21 + e.key.length + e.value.length := by
  simp only [payload, le32, le64, List.length_append, List.length_cons,
    List.length_nil]
  omega

/-- Parsing a payload of the serialized shape (followed by arbitrary further
file bytes) recovers each field from its offset. -/
theorem deserializeEntry_layout (b : Nat) (k v temp : List Nat)
    (hk : k.length < 4294967296) (hv : v.length < 4294967296) :
    deserializeEntry (b :: (le32 k.length ++ (k ++ (le32 v.length ++ (v ++ temp))))) =
      { op := b, key := k, value := v, timestamp := decInt64 temp } := by
  have hg2 : b :: (le32 k.length ++ (k ++ (le32 v.length ++ (v ++ temp)))) =
      ((b :: le32 k.length) ++ k) ++ (le32 v.length ++ (v ++ temp)) := by
    simp only [List.cons_append, List.append_assoc]
  have hg3 : b :: (le32 k.length ++ (k ++ (le32 v.length ++ (v ++ temp)))) =
      (((b :: le32 k.length) ++ k) ++ le32 v.length) ++ (v ++ temp) := by
    simp only [List.cons_append, List.append_assoc]
  have hg4 : b :: (le32 k.length ++ (k ++ (le32 v.length ++ (v ++ temp)))) =
      ((((b :: le32 k.length) ++ k) ++ le32 v.length) ++ v) ++ temp := by
    simp only [List.cons_append, List.append_assoc]
  have hlen2 : ((b :: le32 k.length) ++ k).length = 5 + k.length := by
    simp only [List.length_append, List.length_cons, le32_length]
    try omega
  have hlen3 : (((b :: le32 k.length) ++ k) ++ le32 v.length).length = 9 + k.length := by
    simp only [List.length_append, List.length_cons, le32_length]
    omega
  have hlen4 : ((((b :: le32 k.length) ++ k) ++ le32 v.length) ++ v).length =
      9 + k.length + v.length := by
    simp only [List.length_append, List.length_cons, le32_length]
    omega
  have h1 : (b :: (le32 k.length ++ (k ++ (le32 v.length ++ (v ++ temp))))).drop 1 =
      le32 k.length ++ (k ++ (le32 v.length ++ (v ++ temp))) := rfl
  have h5 : (b :: (le32 k.length ++ (k ++ (le32 v.length ++ (v ++ temp))))).drop 5 =
      k ++ (le32 v.length ++ (v ++ temp)) := by
    show ((b :: le32 k.length) ++ (k ++ (le32 v.length ++ (v ++ temp)))).drop 5 = _
    exact List.drop_left' rfl
  have h5k : (b :: (le32 k.length ++ (k ++ (le32 v.length ++ (v ++ temp))))).drop
      (5 + k.length) = le32 v.length ++ (v ++ temp) := by
    rw [hg2]
    exact List.drop_left' hlen2
  have h9k : (b :: (le32 k.length ++ (k ++ (le32 v.length ++ (v ++ temp))))).drop
      (9 + k.length) = v ++ temp := by
    rw [hg3]
    exact List.drop_left' hlen3
  have h9kv : (b :: (le32 k.length ++ (k ++ (le32 v.length ++ (v ++ temp))))).drop
      (9 + k.length + v.length) = temp := by
    rw [hg4]
    exact List.drop_left' hlen4
  simp only [deserializeEntry, List.getD_cons_zero]
  rw [h1, dec32_le32_append, Nat.mod_eq_of_lt hk, h5, List.take_left, h5k,
    dec32_le32_append, Nat.mod_eq_of_lt hv, h9k, List.take_left, h9kv]

/-- Deserializing the payload of a well-formed entry (possibly followed by
further file bytes) recovers the entry exactly. -/
theorem deserialize_payload_append (e : LogEntry) (rest : List Nat)
    (hw : wfEntry e) : deserializeEntry (payload e ++ rest) = e := by
  obtain ⟨op, key, value, ts⟩ := e
  obtain ⟨hop, hlen, ht1, ht2⟩ := hw
  simp only at hop hlen ht1 ht2
  have hshape : payload ⟨op, key, value, ts⟩ ++ rest =
      op % 256 :: (le32 key.length ++ (key ++ (le32 value.length ++ (value ++
        (le64 (ts % 18446744073709551616).toNat ++
          (le32 (computeChecksum key value) ++ rest)))))) := by
    simp only [payload, List.cons_append, List.nil_append, List.append_assoc]
  rw [hshape, deserializeEntry_layout _ _ _ _ (by omega) (by omega),
    decInt64_le64_append ts _ ht1 ht2, Nat.mod_eq_of_lt hop]

theorem readAll_short (data : List Nat) (h : data.length < 4) : readAll data = [] := by
  unfold readAll
  cases hd : data.length with
  | zero => rfl
  | succ n =>
    simp only [readAllGo]
    rw [if_pos h]

theorem readAll_trunc (data : List Nat) (h4 : ¬ data.length < 4)
    (h : data.length < 4 + dec32 data) : readAll data = [] := by
  unfold readAll
  cases hd : data.length with
  | zero => rfl
  | succ n =>
    simp only [readAllGo]
    rw [if_neg h4, if_pos h]

theorem readAll_step (data : List Nat) (h4 : ¬ data.length < 4)
    (h : ¬ data.length < 4 + dec32 data) :
    readAll data = deserializeEntry (data.drop 4) :: readAll (data.drop (4 + dec32 data)) := by
  unfold readAll
  cases hd : data.length with
  | zero => omega
  | succ n =>
    have hlen : (data.drop (4 + dec32 data)).length ≤ n := by
      simp only [List.length_drop]
      omega
    simp only [readAllGo]
    rw [if_neg h4, if_neg h,
      readAllGo_eq_of_le n (data.drop (4 + dec32 data)).length _ hlen (le_refl _)]

/-- One serialized record at the head of the file parses off exactly. -/
theorem readAll_serialize_cons (e : LogEntry) (rest : List Nat) (hw : wfEntry e) :
    readAll (serializeEntry e ++ rest) = e :: readAll rest := by
  obtain ⟨hop, hlen, ht1, ht2⟩ := hw
  have hplen : (payload e).length = 21 + e.key.length + e.value.length := payload_length e
  have hdlen : (serializeEntry e ++ rest).length = 4 + (payload e).length + rest.length := by
    simp only [serializeEntry, List.length_append, le32_length]
    try omega
  have hsz : dec32 (serializeEntry e ++ rest) = (payload e).length := by
    have : serializeEntry e ++ rest = le32 (payload e).length ++ (payload e ++ rest) := by
      simp only [serializeEntry, List.append_assoc]
    rw [this, dec32_le32_append, Nat.mod_eq_of_lt (by omega)]
  have h4 : ¬ (serializeEntry e ++ rest).length < 4 := by omega
  have hfit : ¬ (serializeEntry e ++ rest).length < 4 + dec32 (serializeEntry e ++ rest) := by
    rw [hsz]; omega
  rw [readAll_step _ h4 hfit, hsz]
  have hdrop4 : (serializeEntry e ++ rest).drop 4 = payload e ++ rest := by
    have : serializeEntry e ++ rest = le32 (payload e).length ++ (payload e ++ rest) := by
      simp only [serializeEntry, List.append_assoc]
    rw [this]
    exact List.drop_left' (le32_length _)
  have hdropall : (serializeEntry e ++ rest).drop (4 + (payload e).length) = rest := by
    have : serializeEntry e ++ rest = (le32 (payload e).length ++ payload e) ++ rest := by
      simp only [serializeEntry, List.append_assoc]
    rw [this]
    exact List.drop_left' (by simp only [List.length_append, le32_length]; try omega)
  rw [hdrop4, hdropall]
  rw [deserialize_payload_append e rest ⟨hop, hlen, ht1, ht2⟩]

/-- A file of well-formed serialized records followed by a truncated fragment
replays to exactly those records, with no checksum condition anywhere. -/
theorem readAll_concat (es : List LogEntry) (junk : List Nat)
    (hes : ∀ e ∈ es, wfEntry e)
    (hjunk : junk.length < 4 ∨ junk.length < 4 + dec32 junk) :
    readAll ((es.map serializeEntry).flatten ++ junk) = es := by
  induction es with
  | nil =>
    simp only [List.map_nil, List.flatten_nil, List.nil_append]
    rcases hjunk with h | h
    · exact readAll_short junk h
    · by_cases h4 : junk.length < 4
      · exact readAll_short junk h4
      · exact readAll_trunc junk h4 h
  | cons e es ih =>
    simp only [List.map_cons, List.flatten_cons, List.append_assoc]
    rw [readAll_serialize_cons e _ (hes e (by simp)),
      ih (fun x hx => hes x (by simp [hx]))]

/-! ## Claims C3 and C8 — WAL framing and replay -/

/-- C3 (counterexample): a single-record WAL file whose stored checksum field
does not match the checksum of key ++ value is still decoded and returned by
`read_all`; the claim says replay stops at such a record and returns only the
records preceding it (here, none).  The file is the serialization of the PUT
record ("a" -> "b", ts 0) with the last checksum byte overwritten by 9. -/
theorem c3_counterexample :
    readAll ((serializeEntry ⟨1, [97], [98], 0⟩).dropLast ++ [9]) =
      [⟨1, [97], [98], 0⟩] ∧
    dec32 (((serializeEntry ⟨1, [97], [98], 0⟩).dropLast ++ [9]).drop 23) ≠
      computeChecksum [97] [98] := by
  constructor
  · have h1 : readAll ((serializeEntry ⟨1, [97], [98], 0⟩).dropLast ++ [9]) =
        deserializeEntry (((serializeEntry ⟨1, [97], [98], 0⟩).dropLast ++ [9]).drop 4) ::
          readAll (((serializeEntry ⟨1, [97], [98], 0⟩).dropLast ++ [9]).drop
            (4 + dec32 ((serializeEntry ⟨1, [97], [98], 0⟩).dropLast ++ [9]))) :=
      readAll_step _ (by decide) (by decide)
    rw [h1]
    have h2 : deserializeEntry (((serializeEntry ⟨1, [97], [98], 0⟩).dropLast ++ [9]).drop 4) =
        (⟨1, [97], [98], 0⟩ : LogEntry) := by decide
    have h3 : ((serializeEntry ⟨1, [97], [98], 0⟩).dropLast ++ [9]).drop
        (4 + dec32 ((serializeEntry ⟨1, [97], [98], 0⟩).dropLast ++ [9])) = [] := by decide
    rw [h2, h3, readAll_short [] (by decide)]
  · decide

/-- C3 (amended): `read_all` scans length-prefixed records from the beginning
and stops only at the first truncated record (fewer than 4 bytes left for the
length prefix, or a declared length overrunning the file), returning the
records before that point; checksums are read but never verified, so a
checksum-mismatched record does not stop replay.  No checksum condition
appears among the hypotheses. -/
theorem c3_readAll_stops_only_on_truncation (es : List LogEntry) (junk : List Nat)
    (hes : ∀ e ∈ es, wfEntry e)
    (hjunk : junk.length < 4 ∨ junk.length < 4 + dec32 junk) :
    readAll ((es.map serializeEntry).flatten ++ junk) = es :=
  readAll_concat es junk hes hjunk

/-- Witness for `c3_readAll_stops_only_on_truncation` at a two-record file
followed by a 3-byte truncated tail. -/
theorem c3_witness :
    readAll (([⟨1, [97], [98], 10⟩, ⟨2, [97], [], 11⟩].map serializeEntry).flatten
      ++ [5, 0, 0]) = [⟨1, [97], [98], 10⟩, ⟨2, [97], [], 11⟩] :=
  c3_readAll_stops_only_on_truncation [⟨1, [97], [98], 10⟩, ⟨2, [97], [], 11⟩]
    [5, 0, 0] (by intro e he; fin_cases he <;> constructor <;> decide) (by decide)

/-- C8 (counterexample): for the entry with a key of 2^32 - 1 bytes and an
empty value — both sizes within the claim's "smaller than 2^32 bytes" bound,
and within the sizes `serialize_entry` accepts without throwing — the payload
is 2^32 + 20 bytes long, so the 4-byte length prefix (a `uint32_t` cast)
stores 20 and does not equal the payload size. -/
theorem c8_counterexample :
    (⟨1, List.replicate 4294967295 0, [], 0⟩ : LogEntry).key.length < 4294967296 ∧
    (⟨1, List.replicate 4294967295 0, [], 0⟩ : LogEntry).value.length < 4294967296 ∧
    dec32 (serializeEntry ⟨1, List.replicate 4294967295 0, [], 0⟩) ≠
      (payload ⟨1, List.replicate 4294967295 0, [], 0⟩).length := by
  have hk : (⟨1, List.replicate 4294967295 0, [], 0⟩ : LogEntry).key.length =
      4294967295 := List.length_replicate 4294967295 0
  have hp : (payload ⟨1, List.replicate 4294967295 0, [], 0⟩).length = 4294967316 := by
    rw [payload_length, hk]
    rfl
  have hd : dec32 (serializeEntry ⟨1, List.replicate 4294967295 0, [], 0⟩) = 20 := by
    unfold serializeEntry
    rw [dec32_le32_append, hp]
  refine ⟨by omega, by simp, ?_⟩
  rw [hd, hp]
  omega

/-- C8 (amended): for every entry whose op fits a byte, whose whole payload
(21 + keylen + vallen bytes) is smaller than 2^32 — in particular whenever key
and value are each smaller than 2^32 - 21 bytes — and whose timestamp is a
representable `int64_t`: `serialize_entry` produces the layout
`[length(4)][op(1)][keylen(4)][key][vallen(4)][val][ts(8)][checksum(4)]`, the
4-byte length prefix decodes to exactly the payload size, and
`deserialize_entry` applied to the payload returns the same op, key, value and
timestamp. -/
theorem c8_framing_roundtrip (e : LogEntry) (rest : List Nat) (hw : wfEntry e) :
    serializeEntry e = le32 (payload e).length ++ payload e ∧
    payload e = [e.op % 256] ++ le32 e.key.length ++ e.key ++ le32 e.value.length ++
      e.value ++ le64 (e.timestamp % 18446744073709551616).toNat ++
      le32 (computeChecksum e.key e.value) ∧
    dec32 (serializeEntry e) = (payload e).length ∧
    deserializeEntry (payload e ++ rest) = e := by
  refine ⟨rfl, rfl, ?_, deserialize_payload_append e rest hw⟩
  show dec32 (le32 (payload e).length ++ payload e) = (payload e).length
  rw [dec32_le32_append]
  have := payload_length e
  obtain ⟨-, h, -, -⟩ := hw
  omega

/-- Witness for `c8_framing_roundtrip` at the PUT entry ("a" -> "b", ts 5). -/
theorem c8_witness :
    wfEntry ⟨1, [97], [98], 5⟩ ∧
    dec32 (serializeEntry ⟨1, [97], [98], 5⟩) = (payload ⟨1, [97], [98], 5⟩).length ∧
    deserializeEntry (payload ⟨1, [97], [98], 5⟩ ++ []) = ⟨1, [97], [98], 5⟩ := by
  have hw : wfEntry ⟨1, [97], [98], 5⟩ := by constructor <;> decide
  exact ⟨hw, (c8_framing_roundtrip ⟨1, [97], [98], 5⟩ [] hw).2.2.1,
    (c8_framing_roundtrip ⟨1, [97], [98], 5⟩ [] hw).2.2.2⟩

/-! ### LRU shard lemmas -/

section LruLemmas

variable {K V : Type} [DecidableEq K]

theorem find?_keyIs_none_iff (l : List (Node K V)) (k : K) :
    l.find? (keyIs k) = none ↔ k ∉ l.map Node.key := by
  rw [List.find?_eq_none]
  simp only [keyIs, decide_eq_true_eq, List.mem_map, not_exists]
  constructor
  · rintro h n ⟨hn, hk⟩
    exact h n hn hk
  · intro h n hn hk
    exact h n ⟨hn, hk⟩

theorem find?_keyIs_some (l : List (Node K V)) (k : K) (n : Node K V)
    (h : l.find? (keyIs k) = some n) : n.key = k ∧ n ∈ l := by
  refine ⟨?_, List.mem_of_find?_eq_some h⟩
  have := List.find?_some h
  simpa [keyIs] using this

theorem map_key_eraseP (l : List (Node K V)) (k : K) :
    (l.eraseP (keyIs k)).map Node.key = (l.map Node.key).erase k := by
  induction l with
  | nil => rfl
  | cons n t ih =>
    by_cases h : n.key = k
    · rw [List.eraseP_cons_of_pos (by simp [keyIs, h]), List.map_cons, h,
        List.erase_cons_head]
    · rw [List.eraseP_cons_of_neg (by simp [keyIs, h]), List.map_cons, List.map_cons,
        List.erase_cons_tail (by simp [h]), ih]

theorem find?_eraseP_of_ne (l : List (Node K V)) (k q : K) (hne : q ≠ k) :
    (l.eraseP (keyIs k)).find? (keyIs q) = l.find? (keyIs q) := by
  induction l with
  | nil => rfl
  | cons n t ih =>
    by_cases hk : n.key = k
    · rw [List.eraseP_cons_of_pos (by simp [keyIs, hk])]
      rw [List.find?_cons_of_neg _ (by simp [keyIs, hk]; exact fun hh => hne hh.symm)]
    · by_cases hq : n.key = q
      · rw [List.eraseP_cons_of_neg (by simp [keyIs, hk]),
          List.find?_cons_of_pos _ (by simp [keyIs, hq]),
          List.find?_cons_of_pos _ (by simp [keyIs, hq])]
      · rw [List.eraseP_cons_of_neg (by simp [keyIs, hk]),
          List.find?_cons_of_neg _ (by simp [keyIs, hq]),
          List.find?_cons_of_neg _ (by simp [keyIs, hq]), ih]

theorem cons_eraseP_perm (l : List (Node K V)) (k : K) (n : Node K V)
    (h : l.find? (keyIs k) = some n) : (n :: l.eraseP (keyIs k)).Perm l := by
  induction l with
  | nil => simp at h
  | cons m t ih =>
    by_cases hm : m.key = k
    · rw [List.find?_cons_of_pos _ (by simp [keyIs, hm])] at h
      injection h with h
      subst h
      rw [List.eraseP_cons_of_pos (by simp [keyIs, hm])]
    · rw [List.find?_cons_of_neg _ (by simp [keyIs, hm])] at h
      rw [List.eraseP_cons_of_neg (by simp [keyIs, hm])]
      exact (List.Perm.swap m n _).trans ((ih h).cons m)

theorem length_eraseP_of_find? (l : List (Node K V)) (k : K) (n : Node K V)
    (h : l.find? (keyIs k) = some n) : (l.eraseP (keyIs k)).length + 1 = l.length := by
  have := (cons_eraseP_perm l k n h).length_eq
  simpa using this

theorem find?_eraseP_self (l : List (Node K V)) (k : K)
    (hnd : (l.map Node.key).Nodup) :
    (l.eraseP (keyIs k)).find? (keyIs k) = none := by
  rw [find?_keyIs_none_iff, map_key_eraseP]
  intro hmem
  exact absurd ((hnd.mem_erase_iff).mp hmem).1 (by simp)

theorem sizeOk_of_wf (c : LruCache K V) (h : lruWf c) : sizeOk c :=
  ⟨h.1.length_eq.trans (List.length_map _ _), h.2.2⟩

theorem lruWf_get (c : LruCache K V) (k : K) (now : Nat) (h : lruWf c) :
    lruWf (lruGet c k now).2 := by
  obtain ⟨hperm, hnd, hlen⟩ := h
  cases hfind : c.list.find? (keyIs k) with
  | none =>
    simp only [lruGet, hfind]
    exact ⟨hperm, hnd, hlen⟩
  | some n =>
    cases hexp : isExpired n now with
    | true =>
      simp only [lruGet, hfind, hexp, if_pos]
      refine ⟨?_, ?_, ?_⟩
      · rw [map_key_eraseP]
        exact hperm.erase k
      · rw [map_key_eraseP]
        exact hnd.erase k
      · exact le_trans (List.eraseP_sublist _).length_le hlen
    | false =>
      by_cases hpro : c.lastPromote + 1000 < now
      · simp only [lruGet, hfind, hexp, Bool.false_eq_true, if_false, if_pos hpro]
        have hp := cons_eraseP_perm c.list k n hfind
        refine ⟨hperm.trans (hp.map Node.key).symm, ?_, ?_⟩
        · exact ((hp.map Node.key).nodup_iff).mpr hnd
        · rw [hp.length_eq]
          exact hlen
      · simp only [lruGet, hfind, hexp, Bool.false_eq_true, if_false, if_neg hpro]
        exact ⟨hperm, hnd, hlen⟩

theorem lruWf_put (c : LruCache K V) (k : K) (v : V) (ttl : Int) (now : Nat)
    (hcap : 0 < c.capacity) (h : lruWf c) : lruWf (lruPut c k v ttl now) := by
  obtain ⟨hperm, hnd, hlen⟩ := h
  cases hfind : c.list.find? (keyIs k) with
  | some n =>
    simp only [lruPut, hfind]
    have hkmem : k ∈ c.list.map Node.key := by
      obtain ⟨hk, hm⟩ := find?_keyIs_some c.list k n hfind
      exact List.mem_map.mpr ⟨n, hm, hk⟩
    refine ⟨?_, ?_, ?_⟩
    · rw [List.map_cons, map_key_eraseP]
      exact hperm.trans (List.perm_cons_erase hkmem)
    · rw [List.map_cons, map_key_eraseP]
      refine List.nodup_cons.mpr ⟨fun hmem => ?_, hnd.erase k⟩
      exact absurd ((hnd.mem_erase_iff).mp hmem).1 (by simp)
    · have h1 := length_eraseP_of_find? c.list k n hfind
      simp only [List.length_cons]
      omega
  | none =>
    have hknot : k ∉ c.list.map Node.key := (find?_keyIs_none_iff _ _).mp hfind
    by_cases hguard : c.capacity ≤ c.mapKeys.length
    · cases hlast : c.list.getLast? with
      | some tailNode =>
        simp only [lruPut, hfind, if_pos hguard, hlast]
        obtain ⟨l₁, hl⟩ := List.getLast?_eq_some_iff.mp hlast
        have hmapl : c.list.map Node.key = l₁.map Node.key ++ [tailNode.key] := by
          rw [hl, List.map_append, List.map_cons, List.map_nil]
        have hnd' := hmapl ▸ hnd
        have htail_not : tailNode.key ∉ l₁.map Node.key := by
          rcases List.nodup_append.mp hnd' with ⟨-, -, hdisj⟩
          exact fun hmem => hdisj hmem (List.mem_singleton_self _)
        have hnd₁ : (l₁.map Node.key).Nodup := (List.nodup_append.mp hnd').1
        have htk_ne : tailNode.key ≠ k := by
          intro hh
          exact hknot (hh ▸ (hmapl ▸ List.mem_append_right _ (List.mem_singleton_self _)))
        have hdrop : c.list.dropLast = l₁ := by
          rw [hl, List.dropLast_concat]
        have herase : (k :: c.mapKeys).erase tailNode.key =
            k :: c.mapKeys.erase tailNode.key :=
          List.erase_cons_tail (by simpa using Ne.symm htk_ne)
        have hperm₁ : (c.mapKeys.erase tailNode.key).Perm (l₁.map Node.key) := by
          have h1 := hperm.erase tailNode.key
          rw [hmapl, List.erase_append_right _ htail_not, List.erase_cons_head,
            List.append_nil] at h1
          exact h1
        refine ⟨?_, ?_, ?_⟩
        · rw [herase, List.map_cons, hdrop]
          exact hperm₁.cons k
        · rw [List.map_cons, hdrop]
          refine List.nodup_cons.mpr ⟨fun hmem => ?_, hnd₁⟩
          exact hknot (hmapl ▸ List.mem_append_left _ hmem)
        · simp only [List.length_cons, hdrop]
          have : c.list.length = l₁.length + 1 := by
            rw [hl, List.length_append, List.length_cons, List.length_nil]
          omega
      | none =>
        exfalso
        have hnil : c.list = [] := List.getLast?_eq_none_iff.mp hlast
        have : c.mapKeys.length = 0 := by
          rw [hperm.length_eq, hnil]
          rfl
        omega
    · simp only [lruPut, hfind, if_neg hguard]
      refine ⟨hperm.cons k, List.nodup_cons.mpr ⟨hknot, hnd⟩, ?_⟩
      have : c.mapKeys.length = c.list.length :=
        hperm.length_eq.trans (List.length_map _ _)
      simp only [List.length_cons]
      omega

theorem lruWf_remove (c : LruCache K V) (k : K) (h : lruWf c) :
    lruWf (lruRemove c k).2 := by
  obtain ⟨hperm, hnd, hlen⟩ := h
  cases hfind : c.list.find? (keyIs k) with
  | none =>
    simp only [lruRemove, hfind]
    exact ⟨hperm, hnd, hlen⟩
  | some n =>
    simp only [lruRemove, hfind]
    refine ⟨?_, ?_, ?_⟩
    · rw [map_key_eraseP]
      exact hperm.erase k
    · rw [map_key_eraseP]
      exact hnd.erase k
    · exact le_trans (List.eraseP_sublist _).length_le hlen

theorem lruWf_clear (c : LruCache K V) : lruWf (lruClear c) := by
  refine ⟨?_, ?_, ?_⟩ <;> simp [lruClear]

theorem foldl_erase_perm (ks : List K) : ∀ {m₁ m₂ : List K}, m₁.Perm m₂ →
    (ks.foldl (fun m x => m.erase x) m₁).Perm (ks.foldl (fun m x => m.erase x) m₂) := by
  induction ks with
  | nil => intro _ _ h; exact h
  | cons a t ih => intro m₁ m₂ h; exact ih (h.erase a)

theorem foldl_erase_cons_of_not_mem (ks : List K) : ∀ (a : K) (m : List K), a ∉ ks →
    ks.foldl (fun m x => m.erase x) (a :: m) = a :: ks.foldl (fun m x => m.erase x) m := by
  induction ks with
  | nil => intros; rfl
  | cons b t ih =>
    intro a m ha
    have hab : a ≠ b := fun hh => ha (by simp [hh])
    simp only [List.foldl_cons]
    rw [List.erase_cons_tail (by simp [hab])]
    exact ih a (m.erase b) (fun hmem => ha (List.mem_cons_of_mem _ hmem))

theorem cleanup_keys_perm (now : Nat) : ∀ (l : List (Node K V)) (mk : List K),
    mk.Perm (l.map Node.key) → (l.map Node.key).Nodup →
    (((l.filter (fun n => isExpired n now)).map Node.key).foldl
        (fun m x => m.erase x) mk).Perm
      ((l.filter (fun n => !isExpired n now)).map Node.key) := by
  intro l
  induction l with
  | nil =>
    intro mk hp _
    simpa using hp
  | cons n t ih =>
    intro mk hp hnd
    rw [List.map_cons] at hp hnd
    have hnd_t : (t.map Node.key).Nodup := (List.nodup_cons.mp hnd).2
    have hn_not : n.key ∉ t.map Node.key := (List.nodup_cons.mp hnd).1
    cases hexp : isExpired n now with
    | false =>
      rw [List.filter_cons_of_neg (by simp [hexp]),
        List.filter_cons_of_pos (by simp [hexp]), List.map_cons]
      have hE : ∀ x ∈ (t.filter (fun n => isExpired n now)).map Node.key,
          x ∈ t.map Node.key := by
        intro x hx
        obtain ⟨m, hm, hmx⟩ := List.mem_map.mp hx
        exact List.mem_map.mpr ⟨m, List.mem_of_mem_filter hm, hmx⟩
      have h1 : (((t.filter (fun n => isExpired n now)).map Node.key).foldl
            (fun m x => m.erase x) mk).Perm
          (((t.filter (fun n => isExpired n now)).map Node.key).foldl
            (fun m x => m.erase x) (n.key :: t.map Node.key)) := foldl_erase_perm _ hp
      have h2 : ((t.filter (fun n => isExpired n now)).map Node.key).foldl
            (fun m x => m.erase x) (n.key :: t.map Node.key) =
          n.key :: ((t.filter (fun n => isExpired n now)).map Node.key).foldl
            (fun m x => m.erase x) (t.map Node.key) :=
        foldl_erase_cons_of_not_mem _ _ _ (fun hmem => hn_not (hE _ hmem))
      have h3 := (ih (t.map Node.key) (List.Perm.refl _) hnd_t).cons n.key
      have h4 : (((t.filter (fun n => isExpired n now)).map Node.key).foldl
            (fun m x => m.erase x) (n.key :: t.map Node.key)).Perm
          (n.key :: (t.filter (fun n => !isExpired n now)).map Node.key) := by
        rw [h2]
        exact h3
      exact h1.trans h4
    | true =>
      rw [List.filter_cons_of_pos (by simp [hexp]),
        List.filter_cons_of_neg (by simp [hexp]), List.map_cons, List.foldl_cons]
      have hp2 : (mk.erase n.key).Perm (t.map Node.key) := by
        have h1 := hp.erase n.key
        rwa [List.erase_cons_head] at h1
      exact ih (mk.erase n.key) hp2 hnd_t

theorem lruWf_cleanup (c : LruCache K V) (now : Nat) (h : lruWf c) :
    lruWf (lruCleanup c now) := by
  obtain ⟨hperm, hnd, hlen⟩ := h
  refine ⟨?_, ?_, ?_⟩
  · have hfm : ∀ (ex : List (Node K V)) (m0 : List K),
        ex.foldl (fun mk n => mk.erase n.key) m0 =
          (ex.map Node.key).foldl (fun m x => m.erase x) m0 := by
      intro ex m0
      rw [List.foldl_map]
    show ((c.list.filter (fun n => isExpired n now)).foldl
        (fun mk n => mk.erase n.key) c.mapKeys).Perm
        ((c.list.filter (fun n => !isExpired n now)).map Node.key)
    rw [hfm]
    exact cleanup_keys_perm now c.list c.mapKeys hperm hnd
  · exact hnd.sublist ((List.filter_sublist _).map Node.key)
  · exact le_trans (List.filter_sublist _).length_le hlen

theorem lruPut_find?_self (c : LruCache K V) (k : K) (v : V) (ttl : Int) (now : Nat) :
    (lruPut c k v ttl now).list.find? (keyIs k) = some ⟨k, v, putExpiry ttl now⟩ := by
  cases hfind : c.list.find? (keyIs k) with
  | some n =>
    simp only [lruPut, hfind]
    exact List.find?_cons_of_pos _ (by simp [keyIs])
  | none =>
    simp only [lruPut, hfind]
    by_cases hguard : c.capacity ≤ c.mapKeys.length
    · simp only [if_pos hguard]
      cases c.list.getLast? with
      | some t => exact List.find?_cons_of_pos _ (by simp [keyIs])
      | none => exact List.find?_cons_of_pos _ (by simp [keyIs])
    · simp only [if_neg hguard]
      exact List.find?_cons_of_pos _ (by simp [keyIs])

theorem lruPut_expired_count (c : LruCache K V) (k : K) (v : V) (ttl : Int) (now : Nat) :
    (lruPut c k v ttl now).expired = c.expired := by
  cases hfind : c.list.find? (keyIs k) with
  | some n => simp only [lruPut, hfind]
  | none =>
    simp only [lruPut, hfind]
    by_cases hguard : c.capacity ≤ c.mapKeys.length
    · simp only [if_pos hguard]
      cases c.list.getLast? with
      | some t => rfl
      | none => rfl
    · simp only [if_neg hguard]

/-- After a put, the stored node sits at the front; under distinct list keys,
no other node with that key remains behind it. -/
theorem lruPut_shape (c : LruCache K V) (k : K) (v : V) (ttl : Int) (now : Nat)
    (hnd : (c.list.map Node.key).Nodup) :
    ∃ l', (lruPut c k v ttl now).list = ⟨k, v, putExpiry ttl now⟩ :: l' ∧
      k ∉ l'.map Node.key := by
  cases hfind : c.list.find? (keyIs k) with
  | some n =>
    simp only [lruPut, hfind]
    refine ⟨c.list.eraseP (keyIs k), rfl, ?_⟩
    rw [map_key_eraseP]
    intro hmem
    exact absurd ((hnd.mem_erase_iff).mp hmem).1 (by simp)
  | none =>
    have hknot : k ∉ c.list.map Node.key := (find?_keyIs_none_iff _ _).mp hfind
    simp only [lruPut, hfind]
    by_cases hguard : c.capacity ≤ c.mapKeys.length
    · simp only [if_pos hguard]
      cases c.list.getLast? with
      | some t =>
        refine ⟨c.list.dropLast, rfl, fun hmem => hknot ?_⟩
        rw [List.map_dropLast] at hmem
        exact (List.dropLast_sublist _).subset hmem
      | none => exact ⟨[], rfl, by simp⟩
    · simp only [if_neg hguard]
      exact ⟨c.list, rfl, hknot⟩

theorem lruGet_expired_eq (c : LruCache K V) (k : K) (now : Nat) (n : Node K V)
    (hf : c.list.find? (keyIs k) = some n) (hexp : isExpired n now = true) :
    lruGet c k now =
      (none,
        { c with
          list := c.list.eraseP (keyIs k)
          mapKeys := c.mapKeys.erase k
          expired := c.expired + 1
          misses := c.misses + 1 }) := by
  simp only [lruGet, hf, hexp, if_pos]

theorem lruGet_miss_eq (c : LruCache K V) (k : K) (now : Nat)
    (hf : c.list.find? (keyIs k) = none) :
    lruGet c k now = (none, { c with misses := c.misses + 1 }) := by
  simp only [lruGet, hf]

theorem lruPut_evict (c : LruCache K V) (k : K) (v : V) (ttl : Int) (now : Nat)
    (hfind : c.list.find? (keyIs k) = none) (hsize : c.capacity ≤ c.mapKeys.length)
    (tailNode : Node K V) (hlast : c.list.getLast? = some tailNode) :
    lruPut c k v ttl now = { c with
      list := ⟨k, v, putExpiry ttl now⟩ :: c.list.dropLast,
      mapKeys := (k :: c.mapKeys).erase tailNode.key,
      evictions := c.evictions + 1, puts := c.puts + 1 } := by
  simp only [lruPut, hfind, if_pos hsize, hlast]

/-- A put that does not evict (either the key exists, or there is room)
updates the presented mapping pointwise at the key and preserves the
key-tracking facts. -/
theorem lruPut_lookup (c : LruCache K V) (k : K) (v : V) (ttl : Int) (now : Nat)
    (hnd : (c.list.map Node.key).Nodup)
    (hperm : c.mapKeys.Perm (c.list.map Node.key))
    (hroom : c.list.find? (keyIs k) = none → c.mapKeys.length < c.capacity) :
    (∀ q, shardLookup (lruPut c k v ttl now) q =
      if q = k then some v else shardLookup c q) ∧
    (∀ q ∈ (lruPut c k v ttl now).list.map Node.key,
      q = k ∨ q ∈ c.list.map Node.key) ∧
    ((lruPut c k v ttl now).list.map Node.key).Nodup ∧
    (lruPut c k v ttl now).mapKeys.Perm ((lruPut c k v ttl now).list.map Node.key) ∧
    (lruPut c k v ttl now).capacity = c.capacity := by
  cases hfind : c.list.find? (keyIs k) with
  | some n =>
    simp only [lruPut, hfind]
    have hkmem : k ∈ c.list.map Node.key := by
      obtain ⟨hk, hm⟩ := find?_keyIs_some c.list k n hfind
      exact List.mem_map.mpr ⟨n, hm, hk⟩
    refine ⟨?_, ?_, ?_, ?_, trivial⟩
    · intro q
      by_cases hq : q = k
      · subst hq
        show (((⟨q, v, putExpiry ttl now⟩ : Node K V) ::
          c.list.eraseP (keyIs q)).find? (keyIs q)).map Node.value = _
        rw [List.find?_cons_of_pos _ (by simp [keyIs]), if_pos rfl]
        rfl
      · show (((⟨k, v, putExpiry ttl now⟩ : Node K V) ::
          c.list.eraseP (keyIs k)).find? (keyIs q)).map Node.value = _
        rw [List.find?_cons_of_neg _ (by simp [keyIs]; exact fun hh => hq hh.symm),
          find?_eraseP_of_ne c.list k q hq, if_neg hq]
        rfl
    · intro q hq
      rw [List.map_cons] at hq
      rcases List.mem_cons.mp hq with hh | hh
      · exact Or.inl hh
      · rw [map_key_eraseP] at hh
        exact Or.inr (List.mem_of_mem_erase hh)
    · rw [List.map_cons, map_key_eraseP]
      exact List.nodup_cons.mpr
        ⟨fun hmem => absurd ((hnd.mem_erase_iff).mp hmem).1 (by simp), hnd.erase k⟩
    · rw [List.map_cons, map_key_eraseP]
      exact hperm.trans (List.perm_cons_erase hkmem)
  | none =>
    have hknot : k ∉ c.list.map Node.key := (find?_keyIs_none_iff _ _).mp hfind
    have hroom' := hroom hfind
    have hguard : ¬ c.capacity ≤ c.mapKeys.length := by omega
    simp only [lruPut, hfind, if_neg hguard]
    refine ⟨?_, ?_, ?_, ?_, trivial⟩
    · intro q
      by_cases hq : q = k
      · subst hq
        show (((⟨q, v, putExpiry ttl now⟩ : Node K V) :: c.list).find?
          (keyIs q)).map Node.value = _
        rw [List.find?_cons_of_pos _ (by simp [keyIs]), if_pos rfl]
        rfl
      · show (((⟨k, v, putExpiry ttl now⟩ : Node K V) :: c.list).find?
          (keyIs q)).map Node.value = _
        rw [List.find?_cons_of_neg _ (by simp [keyIs]; exact fun hh => hq hh.symm),
          if_neg hq]
        rfl
    · intro q hq
      rw [List.map_cons] at hq
      exact List.mem_cons.mp hq
    · rw [List.map_cons]
      exact List.nodup_cons.mpr ⟨hknot, hnd⟩
    · rw [List.map_cons]
      exact hperm.cons k

/-- A remove erases the key from the presented mapping pointwise and
preserves the key-tracking facts. -/
theorem lruRemove_lookup (c : LruCache K V) (k : K)
    (hnd : (c.list.map Node.key).Nodup)
    (hperm : c.mapKeys.Perm (c.list.map Node.key)) :
    (∀ q, shardLookup (lruRemove c k).2 q =
      if q = k then none else shardLookup c q) ∧
    (∀ q ∈ (lruRemove c k).2.list.map Node.key, q ∈ c.list.map Node.key) ∧
    ((lruRemove c k).2.list.map Node.key).Nodup ∧
    (lruRemove c k).2.mapKeys.Perm ((lruRemove c k).2.list.map Node.key) ∧
    (lruRemove c k).2.capacity = c.capacity := by
  cases hfind : c.list.find? (keyIs k) with
  | none =>
    simp only [lruRemove, hfind]
    refine ⟨?_, fun q hq => hq, hnd, hperm, trivial⟩
    intro q
    by_cases hq : q = k
    · subst hq
      rw [if_pos rfl]
      show (c.list.find? (keyIs q)).map Node.value = none
      rw [hfind]
      rfl
    · rw [if_neg hq]
  | some n =>
    simp only [lruRemove, hfind]
    refine ⟨?_, ?_, ?_, ?_, trivial⟩
    · intro q
      by_cases hq : q = k
      · subst hq
        rw [if_pos rfl]
        show ((c.list.eraseP (keyIs q)).find? (keyIs q)).map Node.value = none
        rw [find?_eraseP_self c.list q hnd]
        rfl
      · rw [if_neg hq]
        show ((c.list.eraseP (keyIs k)).find? (keyIs q)).map Node.value = _
        rw [find?_eraseP_of_ne c.list k q hq]
        rfl
    · intro q hq
      rw [map_key_eraseP] at hq
      exact List.mem_of_mem_erase hq
    · rw [map_key_eraseP]
      exact hnd.erase k
    · rw [map_key_eraseP]
      exact hperm.erase k

/-- A nodup list of keys drawn from `D` but missing some element of `D` is
strictly shorter than `D`'s distinct-key count. -/
theorem length_lt_card (l D : List K) (k : K) (hnd : l.Nodup)
    (hsub : ∀ x ∈ l, x ∈ D) (hk : k ∈ D) (hknot : k ∉ l) :
    l.length < D.toFinset.card := by
  have h1 : l.toFinset ⊆ D.toFinset.erase k := by
    intro x hx
    rw [List.mem_toFinset] at hx
    exact Finset.mem_erase.mpr
      ⟨fun hh => hknot (hh ▸ hx), List.mem_toFinset.mpr (hsub x hx)⟩
  have h2 : l.toFinset.card ≤ (D.toFinset.erase k).card := Finset.card_le_card h1
  rw [List.toFinset_card_of_nodup hnd] at h2
  have h3 : (D.toFinset.erase k).card = D.toFinset.card - 1 :=
    Finset.card_erase_of_mem (List.mem_toFinset.mpr hk)
  have h4 : 0 < D.toFinset.card := Finset.card_pos.mpr ⟨k, List.mem_toFinset.mpr hk⟩
  omega

end LruLemmas

/-! ## Claims C5, C6 and C10 — LRU shard semantics -/

section LruClaims

variable {K V : Type} [DecidableEq K]

/-- C6: from a well-formed shard state with positive capacity, every
operation (get, put, remove, clear, cleanup of expired keys) preserves
`|hashmap| = |recency list| ≤ capacity`; and a put of a new key when the map
size equals the capacity takes the eviction branch: the tail node is removed
from both structures, the evictions counter is incremented, and both sizes
stay at capacity. -/
theorem c6_shard_structural_invariant (c : LruCache K V) (k : K) (v : V)
    (ttl : Int) (now : Nat) (hcap : 0 < c.capacity) (hwf : lruWf c) :
    sizeOk (lruGet c k now).2 ∧ sizeOk (lruPut c k v ttl now) ∧
      sizeOk (lruRemove c k).2 ∧ sizeOk (lruClear c) ∧ sizeOk (lruCleanup c now) ∧
      (c.list.find? (keyIs k) = none → c.mapKeys.length = c.capacity →
        ∃ tailNode, c.list.getLast? = some tailNode ∧
          lruPut c k v ttl now = { c with
            list := ⟨k, v, putExpiry ttl now⟩ :: c.list.dropLast,
            mapKeys := (k :: c.mapKeys).erase tailNode.key,
            evictions := c.evictions + 1, puts := c.puts + 1 } ∧
          tailNode.key ∉ (lruPut c k v ttl now).list.map Node.key ∧
          tailNode.key ∉ (lruPut c k v ttl now).mapKeys ∧
          (lruPut c k v ttl now).list.length = c.capacity ∧
          (lruPut c k v ttl now).mapKeys.length = c.capacity) := by
  obtain ⟨hperm, hnd, hlen⟩ := hwf
  refine ⟨sizeOk_of_wf _ (lruWf_get c k now ⟨hperm, hnd, hlen⟩),
    sizeOk_of_wf _ (lruWf_put c k v ttl now hcap ⟨hperm, hnd, hlen⟩),
    sizeOk_of_wf _ (lruWf_remove c k ⟨hperm, hnd, hlen⟩),
    sizeOk_of_wf _ (lruWf_clear c),
    sizeOk_of_wf _ (lruWf_cleanup c now ⟨hperm, hnd, hlen⟩), ?_⟩
  intro hfind hsize
  have hlen_eq : c.mapKeys.length = c.list.length :=
    hperm.length_eq.trans (List.length_map _ _)
  have hlistlen : c.list.length = c.capacity := by omega
  obtain ⟨tailNode, hlast⟩ : ∃ t, c.list.getLast? = some t := by
    cases hl : c.list.getLast? with
    | none =>
      exfalso
      have hnil : c.list = [] := List.getLast?_eq_none_iff.mp hl
      rw [hnil] at hlistlen
      simp at hlistlen
      omega
    | some t => exact ⟨t, rfl⟩
  have heq := lruPut_evict c k v ttl now hfind (by omega) tailNode hlast
  have hknot : k ∉ c.list.map Node.key := (find?_keyIs_none_iff _ _).mp hfind
  obtain ⟨l₁, hl⟩ := List.getLast?_eq_some_iff.mp hlast
  have hmapl : c.list.map Node.key = l₁.map Node.key ++ [tailNode.key] := by
    rw [hl, List.map_append, List.map_cons, List.map_nil]
  have hnd' := hmapl ▸ hnd
  have htail_not : tailNode.key ∉ l₁.map Node.key := by
    rcases List.nodup_append.mp hnd' with ⟨-, -, hdisj⟩
    exact fun hmem => hdisj hmem (List.mem_singleton_self _)
  have htk_ne : tailNode.key ≠ k := by
    intro hh
    exact hknot (hh ▸ (hmapl ▸ List.mem_append_right _ (List.mem_singleton_self _)))
  have hdrop : c.list.dropLast = l₁ := by
    rw [hl, List.dropLast_concat]
  refine ⟨tailNode, hlast, heq, ?_, ?_, ?_, ?_⟩
  · rw [heq]
    dsimp only
    rw [List.map_cons, hdrop]
    intro hmem
    rcases List.mem_cons.mp hmem with hh | hh
    · exact htk_ne hh
    · exact htail_not hh
  · rw [heq]
    dsimp only
    have hmknodup : c.mapKeys.Nodup := (hperm.nodup_iff).mpr hnd
    have hknotmk : k ∉ c.mapKeys := fun hmem => hknot (hperm.subset hmem)
    have hndc : (k :: c.mapKeys).Nodup := List.nodup_cons.mpr ⟨hknotmk, hmknodup⟩
    intro hmem
    exact absurd ((hndc.mem_erase_iff).mp hmem).1 (by simp)
  · rw [heq]
    dsimp only
    simp only [List.length_cons, List.length_dropLast]
    omega
  · rw [heq]
    dsimp only
    have htailmem : tailNode.key ∈ c.mapKeys :=
      hperm.symm.subset
        (List.mem_map_of_mem Node.key (List.mem_of_getLast?_eq_some hlast))
    rw [List.length_erase_of_mem (List.mem_cons_of_mem _ htailmem), List.length_cons]
    omega

/-- Witness for `c6_shard_structural_invariant`: a full 2-capacity shard and
a put of the fresh key "c" that must evict the tail "a". -/
theorem c6_witness :
    sizeOk (lruPut (⟨2, [⟨"b", "2", 0⟩, ⟨"a", "1", 0⟩], ["a", "b"],
      0, 0, 0, 0, 0, 0, 0⟩ : LruCache String String) "c" "3" 0 5) ∧
    (∃ tailNode, (⟨2, [⟨"b", "2", 0⟩, ⟨"a", "1", 0⟩], ["a", "b"],
        0, 0, 0, 0, 0, 0, 0⟩ : LruCache String String).list.getLast? = some tailNode ∧
      lruPut (⟨2, [⟨"b", "2", 0⟩, ⟨"a", "1", 0⟩], ["a", "b"],
        0, 0, 0, 0, 0, 0, 0⟩ : LruCache String String) "c" "3" 0 5 =
        { (⟨2, [⟨"b", "2", 0⟩, ⟨"a", "1", 0⟩], ["a", "b"],
            0, 0, 0, 0, 0, 0, 0⟩ : LruCache String String) with
          list := ⟨"c", "3", putExpiry 0 5⟩ ::
            (⟨2, [⟨"b", "2", 0⟩, ⟨"a", "1", 0⟩], ["a", "b"],
              0, 0, 0, 0, 0, 0, 0⟩ : LruCache String String).list.dropLast,
          mapKeys := ("c" :: ["a", "b"]).erase tailNode.key,
          evictions := 0 + 1, puts := 0 + 1 } ∧
      tailNode.key ∉ (lruPut (⟨2, [⟨"b", "2", 0⟩, ⟨"a", "1", 0⟩], ["a", "b"],
        0, 0, 0, 0, 0, 0, 0⟩ : LruCache String String) "c" "3" 0 5).list.map Node.key ∧
      tailNode.key ∉ (lruPut (⟨2, [⟨"b", "2", 0⟩, ⟨"a", "1", 0⟩], ["a", "b"],
        0, 0, 0, 0, 0, 0, 0⟩ : LruCache String String) "c" "3" 0 5).mapKeys ∧
      (lruPut (⟨2, [⟨"b", "2", 0⟩, ⟨"a", "1", 0⟩], ["a", "b"],
        0, 0, 0, 0, 0, 0, 0⟩ : LruCache String String) "c" "3" 0 5).list.length = 2 ∧
      (lruPut (⟨2, [⟨"b", "2", 0⟩, ⟨"a", "1", 0⟩], ["a", "b"],
        0, 0, 0, 0, 0, 0, 0⟩ : LruCache String String) "c" "3" 0 5).mapKeys.length = 2) := by
  have h := c6_shard_structural_invariant
    (⟨2, [⟨"b", "2", 0⟩, ⟨"a", "1", 0⟩], ["a", "b"],
      0, 0, 0, 0, 0, 0, 0⟩ : LruCache String String) "c" "3" 0 5
    (by decide) (by refine ⟨?_, ?_, ?_⟩ <;> decide)
  exact ⟨h.2.1, h.2.2.2.2.2 (by decide) (by decide)⟩

/-- C5 (counterexample): `is_expired` uses the strict comparison
`now > expiry_time_ms`, so after `put("x", "1", ttl_ms = 50)` at time 1000 a
`get("x")` at time 1050 — the clock advanced by exactly `ttl_ms`, which the
claim's "at least ttl_ms" covers — still returns the value, not absent. -/
theorem c5_counterexample :
    (lruGet (lruPut (emptyLru 1 : LruCache String String) "x" "1" 50 1000)
      "x" 1050).1 = some "1" ∧ 1000 + 50 ≤ 1050 := by
  constructor
  · decide
  · decide

/-- C5 (amended): an entry stored with `ttl_ms = 0` never expires — a get at
any later time returns the value; and for `ttl_ms > 0`, once the clock has
advanced by strictly more than `ttl_ms` since the put (with no refresh), a
get returns absent and increments the `expired` counter exactly once — a
further get finds nothing and leaves `expired` unchanged. -/
theorem c5_ttl_expiry_semantics (c : LruCache K V) (k : K) (v : V) (now : Nat) :
    (∀ now', (lruGet (lruPut c k v 0 now) k now').1 = some v) ∧
    (∀ (ttl : Int) (now' now'' : Nat), (c.list.map Node.key).Nodup → 0 < ttl →
      now + ttl.toNat < now' →
      (lruGet (lruPut c k v ttl now) k now').1 = none ∧
      (lruGet (lruPut c k v ttl now) k now').2.expired = c.expired + 1 ∧
      (lruGet (lruGet (lruPut c k v ttl now) k now').2 k now'').1 = none ∧
      (lruGet (lruGet (lruPut c k v ttl now) k now').2 k now'').2.expired =
        c.expired + 1) := by
  constructor
  · intro now'
    have hf := lruPut_find?_self c k v 0 now
    have hexp : isExpired (⟨k, v, putExpiry 0 now⟩ : Node K V) now' = false := rfl
    simp only [lruGet, hf, hexp, Bool.false_eq_true, if_false]
    split <;> rfl
  · intro ttl now' now'' hnd0 httl hlt
    have hf := lruPut_find?_self c k v ttl now
    obtain ⟨l', hshape, hknot⟩ := lruPut_shape c k v ttl now hnd0
    have hev : putExpiry ttl now = now + ttl.toNat := by
      unfold putExpiry
      rw [if_pos httl]
    have hne : now + ttl.toNat ≠ 0 := by omega
    have hexp : isExpired (⟨k, v, putExpiry ttl now⟩ : Node K V) now' = true := by
      simp only [isExpired, hev, hne, if_false, decide_eq_true_eq]
      omega
    have h1 := lruGet_expired_eq (lruPut c k v ttl now) k now' _ hf hexp
    have hl1 : (lruGet (lruPut c k v ttl now) k now').2.list = l' := by
      rw [h1]
      dsimp only
      rw [hshape]
      exact List.eraseP_cons_of_pos (by simp [keyIs])
    have hf2 : (lruGet (lruPut c k v ttl now) k now').2.list.find? (keyIs k) = none := by
      rw [hl1]
      exact (find?_keyIs_none_iff _ _).mpr hknot
    have h2 := lruGet_miss_eq (lruGet (lruPut c k v ttl now) k now').2 k now'' hf2
    refine ⟨?_, ?_, ?_, ?_⟩
    · rw [h1]
    · rw [h1]
      dsimp only
      rw [lruPut_expired_count]
    · rw [h2]
    · rw [h2]
      dsimp only
      rw [h1]
      dsimp only
      rw [lruPut_expired_count]

/-- Witness for `c5_ttl_expiry_semantics`: a ttl-0 entry survives to time
9000; a ttl-50 entry put at 1000 is absent at 1051 with `expired` counted
once, and stays absent with no further count. -/
theorem c5_witness :
    (lruGet (lruPut (emptyLru 5 : LruCache String String) "x" "1" 0 1000)
      "x" 9000).1 = some "1" ∧
    ((lruGet (lruPut (emptyLru 5 : LruCache String String) "x" "1" 50 1000)
        "x" 1051).1 = none ∧
      (lruGet (lruPut (emptyLru 5 : LruCache String String) "x" "1" 50 1000)
        "x" 1051).2.expired = 0 + 1 ∧
      (lruGet (lruGet (lruPut (emptyLru 5 : LruCache String String) "x" "1" 50 1000)
        "x" 1051).2 "x" 2000).1 = none ∧
      (lruGet (lruGet (lruPut (emptyLru 5 : LruCache String String) "x" "1" 50 1000)
        "x" 1051).2 "x" 2000).2.expired = 0 + 1) :=
  ⟨(c5_ttl_expiry_semantics (emptyLru 5) "x" "1" 1000).1 9000,
    (c5_ttl_expiry_semantics (emptyLru 5) "x" "1" 1000).2 50 1051 2000
      (by decide) (by decide) (by decide)⟩

/-- C10: a key whose node is physically present but already expired
(non-zero deadline strictly before now) is still removed: `remove` returns
true and increments `removes`, even though a `get` at the same instant
reports the key absent — `remove` never consults the expiry field. -/
theorem c10_remove_ignores_expiry (c : LruCache K V) (k : K) (n : Node K V)
    (now : Nat) (hfind : c.list.find? (keyIs k) = some n) (he0 : n.expiry ≠ 0)
    (hlt : n.expiry < now) :
    (lruGet c k now).1 = none ∧ (lruRemove c k).1 = true ∧
      (lruRemove c k).2.removes = c.removes + 1 := by
  have hexp : isExpired n now = true := by
    simp only [isExpired, he0, if_false, decide_eq_true_eq]
    omega
  refine ⟨?_, ?_, ?_⟩
  · rw [lruGet_expired_eq c k now n hfind hexp]
  · simp only [lruRemove, hfind]
  · simp only [lruRemove, hfind]

/-- Witness for `c10_remove_ignores_expiry`: a shard holding "x" with expiry
10, observed at time 99. -/
theorem c10_witness :
    (lruGet (⟨2, [⟨"x", "1", 10⟩], ["x"], 0, 0, 0, 0, 0, 0, 0⟩ :
      LruCache String String) "x" 99).1 = none ∧
    (lruRemove (⟨2, [⟨"x", "1", 10⟩], ["x"], 0, 0, 0, 0, 0, 0, 0⟩ :
      LruCache String String) "x").1 = true ∧
    (lruRemove (⟨2, [⟨"x", "1", 10⟩], ["x"], 0, 0, 0, 0, 0, 0, 0⟩ :
      LruCache String String) "x").2.removes = 0 + 1 :=
  c10_remove_ignores_expiry
    (⟨2, [⟨"x", "1", 10⟩], ["x"], 0, 0, 0, 0, 0, 0, 0⟩ : LruCache String String)
    "x" ⟨"x", "1", 10⟩ 99 (by decide) (by decide) (by decide)

end LruClaims

/-! ## Claims C1 and C2 — LSN allocation and the snapshot-restore path -/

theorem scPut_globalLsn (hash : ByteStr → Nat) (s : SCState) (k v : ByteStr)
    (ttl : Int) (now : Nat) : (scPut hash s k v ttl now).globalLsn = s.globalLsn := by
  unfold scPut
  dsimp only
  split
  · rfl
  · split <;> rfl

theorem scRemove_globalLsn (hash : ByteStr → Nat) (s : SCState) (k : ByteStr)
    (now : Nat) : (scRemove hash s k now).2.globalLsn = s.globalLsn := by
  unfold scRemove
  dsimp only
  split
  · rfl
  · split <;> rfl

theorem scNextLsnIter_globalLsn (s : SCState) :
    ∀ i : Nat, (scNextLsnIter s i).globalLsn = s.globalLsn + i := by
  intro i
  induction i with
  | zero => rfl
  | succ n ih =>
    show (scNextLsn (scNextLsnIter s n)).2.globalLsn = s.globalLsn + (n + 1)
    rw [show (scNextLsn (scNextLsnIter s n)).2.globalLsn =
      (scNextLsnIter s n).globalLsn + 1 from rfl, ih]
    omega

/-- C2 (counterexample): on a fresh persistence-enabled store, a successful
`put` stores the value in its shard and appends a PUT record to the WAL — an
accepted, logged mutation — yet `global_lsn_` stays at 1: `next_lsn()` (which
increments the counter on every call) was never invoked, and the appended
record is exactly `serialize_entry` of op/key/value/timestamp — it carries no
LSN. -/
theorem c2_counterexample :
    (scPut (fun _ => 0) ⟨[emptyLru 10], true, ⟨[], [], 1024⟩, 1, []⟩
      [107] [118] 0 5).globalLsn = 1 ∧
    (scPut (fun _ => 0) ⟨[emptyLru 10], true, ⟨[], [], 1024⟩, 1, []⟩
      [107] [118] 0 5).wal.buffer = serializeEntry ⟨1, [107], [118], 5⟩ ∧
    scMapping (fun _ => 0) (scPut (fun _ => 0) ⟨[emptyLru 10], true,
      ⟨[], [], 1024⟩, 1, []⟩ [107] [118] 0 5) [107] = some [118] := by
  refine ⟨?_, ?_, ?_⟩ <;> decide

/-- C2 (amended): `next_lsn()` atomically increments the global counter and
returns the previous value, so successive calls return strictly increasing,
never-reused LSNs; but accepted mutations do not allocate LSNs — `put` and
`remove` never call `next_lsn()` (the counter is unchanged by them) and the
WAL record format has no LSN field. -/
theorem c2_lsn_counter_semantics (hash : ByteStr → Nat) (s : SCState)
    (k v : ByteStr) (ttl : Int) (now : Nat) (i j : Nat) :
    (scNextLsn s).1 = s.globalLsn ∧
    (scNextLsn s).2.globalLsn = s.globalLsn + 1 ∧
    lsnReturned s i = s.globalLsn + i ∧
    (i < j → lsnReturned s i < lsnReturned s j) ∧
    (scPut hash s k v ttl now).globalLsn = s.globalLsn ∧
    (scRemove hash s k now).2.globalLsn = s.globalLsn := by
  have hret : ∀ m : Nat, lsnReturned s m = s.globalLsn + m := by
    intro m
    show (scNextLsnIter s m).globalLsn = s.globalLsn + m
    exact scNextLsnIter_globalLsn s m
  refine ⟨rfl, rfl, hret i, ?_, scPut_globalLsn hash s k v ttl now,
    scRemove_globalLsn hash s k now⟩
  intro hij
  rw [hret i, hret j]
  omega

/-- Witness for `c2_lsn_counter_semantics` on a concrete store with the
hypothesis 0 < 2 discharged. -/
theorem c2_witness :
    lsnReturned ⟨[emptyLru 1], false, ⟨[], [], 0⟩, 1, []⟩ 0 <
      lsnReturned ⟨[emptyLru 1], false, ⟨[], [], 0⟩, 1, []⟩ 2 ∧
    (scPut (fun _ => 0) ⟨[emptyLru 1], false, ⟨[], [], 0⟩, 1, []⟩
      [1] [2] 0 3).globalLsn = 1 :=
  ⟨((c2_lsn_counter_semantics (fun _ => 0)
      ⟨[emptyLru 1], false, ⟨[], [], 0⟩, 1, []⟩ [1] [2] 0 3 0 2).2.2.2.1
      (by decide)),
    (c2_lsn_counter_semantics (fun _ => 0)
      ⟨[emptyLru 1], false, ⟨[], [], 0⟩, 1, []⟩ [1] [2] 0 3 0 2).2.2.2.2.1⟩

/-- C1 (code bug, evaluated at the failing input): restoring a snapshot with
the single entry ("k" → "v") into a persistence-enabled store with an empty
WAL leaves a PUT record for the restored entry in the WAL buffer —
`SimpleCheckpointManager::recover_from_disk` loads snapshot entries through
`cache_->put`, the logging mutator, so the WAL is not unchanged by the
restore step. -/
theorem c1_restore_appends_to_wal :
    (cmRestoreSnapshot (fun _ => 0) 5 ⟨[emptyLru 10], true, ⟨[], [], 1024⟩, 1, []⟩
      [([107], [118])]).wal.buffer = serializeEntry ⟨1, [107], [118], 5⟩ ∧
    (cmRestoreSnapshot (fun _ => 0) 5 ⟨[emptyLru 10], true, ⟨[], [], 1024⟩, 1, []⟩
      [([107], [118])]).wal.buffer ≠ [] := by
  refine ⟨?_, ?_⟩ <;> decide

/-! ## Claim C4 — WAL replay refines the reference map -/

/-- One replay step preserves the simulation invariant against the reference
map: a PUT record with its key among the replayed PUT keys `D` (whose
distinct count fits every shard capacity, so no eviction can fire), or a
DELETE record, updates the routed shard exactly as `refStep` updates the
map. -/
theorem scRecoverStep_inv (hash : ByteStr → Nat) (caps : List Nat)
    (D : List ByteStr) (now : Nat) (s : SCState) (m : ByteStr → Option ByteStr)
    (e : LogEntry) (hD : ∀ c ∈ caps, D.toFinset.card ≤ c)
    (hop : e.op = 1 ∨ e.op = 2) (hkD : e.op = 1 → e.key ∈ D)
    (hinv : scRecoverInv hash caps D s.shards m) :
    scRecoverInv hash caps D (scRecoverStep hash now s e).shards (refStep m e) := by
  obtain ⟨hlen, hsh⟩ := hinv
  rcases hop with hop | hop
  · -- PUT record
    have hkey := hkD hop
    have hrefstep : refStep m e = fun q => if q = e.key then some e.value else m q := by
      unfold refStep
      rw [if_pos hop]
    have hstep : (scRecoverStep hash now s e).shards =
        s.shards.set (hash e.key % s.shards.length)
          (lruPut (scShard s (hash e.key % s.shards.length)) e.key e.value 0 now) := by
      unfold scRecoverStep
      rw [if_pos hop]
    rw [hstep]
    refine ⟨by rw [List.length_set]; exact hlen, ?_⟩
    intro i hi
    have hn : 0 < caps.length := Nat.lt_of_le_of_lt (Nat.zero_le i) hi
    have hslen : 0 < s.shards.length := by omega
    have hidxlt : hash e.key % s.shards.length < s.shards.length := Nat.mod_lt _ hslen
    by_cases hieq : i = hash e.key % s.shards.length
    · have hget : (s.shards.set (hash e.key % s.shards.length)
          (lruPut (scShard s (hash e.key % s.shards.length)) e.key e.value 0 now)).getD
            i (emptyLru 0) =
          lruPut (scShard s (hash e.key % s.shards.length)) e.key e.value 0 now := by
        rw [hieq, List.getD_eq_getElem?_getD, List.getElem?_set_self hidxlt]
        rfl
      obtain ⟨hc, hnd, hperm, hkeys, hlook⟩ := hsh i hi
      have hshard_eq : scShard s i = s.shards.getD i (emptyLru 0) := rfl
      rw [← hshard_eq] at hc hnd hperm hkeys hlook
      rw [hget]
      have hieq' : (hash e.key % s.shards.length) = i := hieq.symm
      rw [hieq']
      have hroute_e : hash e.key % caps.length = i := by
        rw [← hlen]
        exact hieq'
      have hroom : (scShard s i).list.find? (keyIs e.key) = none →
          (scShard s i).mapKeys.length < (scShard s i).capacity := by
        intro hfind
        have hknot : e.key ∉ (scShard s i).list.map Node.key :=
          (find?_keyIs_none_iff _ _).mp hfind
        have hlt := length_lt_card
          ((scShard s i).list.map Node.key) D e.key hnd
          (fun x hx => (hkeys x hx).2) hkey hknot
        have hmem : caps.getD i 0 ∈ caps := by
          rw [List.getD_eq_getElem?_getD, List.getElem?_eq_getElem hi]
          exact List.getElem_mem hi
        have hcbound : D.toFinset.card ≤ caps.getD i 0 := hD _ hmem
        have hlen2 : (scShard s i).mapKeys.length =
            ((scShard s i).list.map Node.key).length := hperm.length_eq
        rw [hc]
        omega
      obtain ⟨hl1, hl2, hl3, hl4, hl5⟩ :=
        lruPut_lookup (scShard s i) e.key e.value 0 now hnd hperm hroom
      refine ⟨by rw [hl5]; exact hc, hl3, hl4, ?_, ?_⟩
      · intro q hq
        rcases hl2 q hq with hh | hh
        · subst hh
          exact ⟨hroute_e, hkey⟩
        · exact hkeys q hh
      · intro q
        have hrs : refStep m e q = if q = e.key then some e.value else m q := by
          rw [hrefstep]
        rw [hl1 q]
        by_cases hq : q = e.key
        · subst hq
          rw [if_pos rfl, if_pos hroute_e, hrs, if_pos rfl]
        · rw [if_neg hq, hlook q]
          by_cases hroute : hash q % caps.length = i
          · rw [if_pos hroute, if_pos hroute, hrs, if_neg hq]
          · rw [if_neg hroute, if_neg hroute]
    · have hget : (s.shards.set (hash e.key % s.shards.length)
          (lruPut (scShard s (hash e.key % s.shards.length)) e.key e.value 0 now)).getD
            i (emptyLru 0) = s.shards.getD i (emptyLru 0) := by
        rw [List.getD_eq_getElem?_getD,
          List.getElem?_set_ne (fun hh => hieq hh.symm),
          ← List.getD_eq_getElem?_getD]
      rw [hget]
      obtain ⟨hc, hnd, hperm, hkeys, hlook⟩ := hsh i hi
      refine ⟨hc, hnd, hperm, hkeys, ?_⟩
      intro q
      have hrs : refStep m e q = if q = e.key then some e.value else m q := by
        rw [hrefstep]
      rw [hlook q, hrs]
      by_cases hroute : hash q % caps.length = i
      · rw [if_pos hroute, if_pos hroute]
        have hqne : q ≠ e.key := by
          intro hh
          apply hieq
          rw [hlen, ← hh, hroute]
        rw [if_neg hqne]
      · rw [if_neg hroute, if_neg hroute]
  · -- DELETE record
    have hop1 : ¬ e.op = 1 := by omega
    have hrefstep : refStep m e = fun q => if q = e.key then none else m q := by
      unfold refStep
      rw [if_neg hop1, if_pos hop]
    have hstep : (scRecoverStep hash now s e).shards =
        s.shards.set (hash e.key % s.shards.length)
          (lruRemove (scShard s (hash e.key % s.shards.length)) e.key).2 := by
      unfold scRecoverStep
      rw [if_neg hop1, if_pos hop]
    rw [hstep]
    refine ⟨by rw [List.length_set]; exact hlen, ?_⟩
    intro i hi
    have hn : 0 < caps.length := Nat.lt_of_le_of_lt (Nat.zero_le i) hi
    have hslen : 0 < s.shards.length := by omega
    have hidxlt : hash e.key % s.shards.length < s.shards.length := Nat.mod_lt _ hslen
    by_cases hieq : i = hash e.key % s.shards.length
    · have hget : (s.shards.set (hash e.key % s.shards.length)
          (lruRemove (scShard s (hash e.key % s.shards.length)) e.key).2).getD
            i (emptyLru 0) =
          (lruRemove (scShard s (hash e.key % s.shards.length)) e.key).2 := by
        rw [hieq, List.getD_eq_getElem?_getD, List.getElem?_set_self hidxlt]
        rfl
      obtain ⟨hc, hnd, hperm, hkeys, hlook⟩ := hsh i hi
      have hshard_eq : scShard s i = s.shards.getD i (emptyLru 0) := rfl
      rw [← hshard_eq] at hc hnd hperm hkeys hlook
      rw [hget]
      have hieq' : (hash e.key % s.shards.length) = i := hieq.symm
      rw [hieq']
      have hroute_e : hash e.key % caps.length = i := by
        rw [← hlen]
        exact hieq'
      obtain ⟨hl1, hl2, hl3, hl4, hl5⟩ := lruRemove_lookup (scShard s i) e.key hnd hperm
      refine ⟨by rw [hl5]; exact hc, hl3, hl4, fun q hq => hkeys q (hl2 q hq), ?_⟩
      intro q
      have hrs : refStep m e q = if q = e.key then none else m q := by
        rw [hrefstep]
      rw [hl1 q]
      by_cases hq : q = e.key
      · subst hq
        rw [if_pos rfl, if_pos hroute_e, hrs, if_pos rfl]
      · rw [if_neg hq, hlook q]
        by_cases hroute : hash q % caps.length = i
        · rw [if_pos hroute, if_pos hroute, hrs, if_neg hq]
        · rw [if_neg hroute, if_neg hroute]
    · have hget : (s.shards.set (hash e.key % s.shards.length)
          (lruRemove (scShard s (hash e.key % s.shards.length)) e.key).2).getD
            i (emptyLru 0) = s.shards.getD i (emptyLru 0) := by
        rw [List.getD_eq_getElem?_getD,
          List.getElem?_set_ne (fun hh => hieq hh.symm),
          ← List.getD_eq_getElem?_getD]
      rw [hget]
      obtain ⟨hc, hnd, hperm, hkeys, hlook⟩ := hsh i hi
      refine ⟨hc, hnd, hperm, hkeys, ?_⟩
      intro q
      have hrs : refStep m e q = if q = e.key then none else m q := by
        rw [hrefstep]
      rw [hlook q, hrs]
      by_cases hroute : hash q % caps.length = i
      · rw [if_pos hroute, if_pos hroute]
        have hqne : q ≠ e.key := by
          intro hh
          apply hieq
          rw [hlen, ← hh, hroute]
        rw [if_neg hqne]
      · rw [if_neg hroute, if_neg hroute]

/-- The invariant carries through a whole replay. -/
theorem scRecover_fold_inv (hash : ByteStr → Nat) (caps : List Nat)
    (D : List ByteStr) (now : Nat) :
    ∀ (es : List LogEntry) (s : SCState) (m : ByteStr → Option ByteStr),
    (∀ e ∈ es, (e.op = 1 ∨ e.op = 2) ∧ (e.op = 1 → e.key ∈ D)) →
    (∀ c ∈ caps, D.toFinset.card ≤ c) →
    scRecoverInv hash caps D s.shards m →
    scRecoverInv hash caps D
      ((es.foldl (scRecoverStep hash now) s)).shards (es.foldl refStep m) := by
  intro es
  induction es with
  | nil =>
    intro s m _ _ h
    exact h
  | cons e t ih =>
    intro s m hes hD hinv
    simp only [List.foldl_cons]
    exact ih (scRecoverStep hash now s e) (refStep m e)
      (fun x hx => hes x (List.mem_cons_of_mem _ hx)) hD
      (scRecoverStep_inv hash caps D now s m e hD (hes e (List.mem_cons_self _ _)).1
        (hes e (List.mem_cons_self _ _)).2 hinv)

/-- C4 (counterexample): one shard of capacity 1, WAL = [PUT "a"→"1",
PUT "b"→"2"] — replay evicts "a" to make room for "b", so the recovered
mapping loses "a" while the reference map keeps it. -/
theorem c4_counterexample :
    scMapping (fun _ => 0) (scRecoverFromDisk (fun _ => 0) 7
      ⟨[emptyLru 1], true,
        ⟨[], ([⟨1, [97], [49], 0⟩, ⟨1, [98], [50], 0⟩].map serializeEntry).flatten,
          1024⟩, 1, []⟩) [97] = none ∧
    refApply [⟨1, [97], [49], 0⟩, ⟨1, [98], [50], 0⟩] [97] = some [49] := by
  refine ⟨?_, ?_⟩ <;> decide

/-- C4 (amended): replaying an unmodified WAL of PUT/DELETE records against
an empty store via `recover_from_disk` produces a key-to-value mapping equal
to applying the records in order to a reference map (PUT inserts or
overwrites, DELETE erases), provided no capacity eviction can occur during
replay — here, the number of distinct PUT keys in the log is at most each
shard's capacity. -/
theorem c4_recovery_refines_reference_map (hash : ByteStr → Nat)
    (caps : List Nat) (records : List LogEntry) (now : Nat) (bufcap lsn : Nat)
    (hne : caps ≠ [])
    (hrec : ∀ e ∈ records, wfEntry e ∧ (e.op = 1 ∨ e.op = 2))
    (hcap : ∀ c ∈ caps,
      ((records.filter (fun e => e.op == 1)).map LogEntry.key).dedup.length ≤ c) :
    ∀ k, scMapping hash (scRecoverFromDisk hash now
        ⟨caps.map (fun c => emptyLru c), true,
          ⟨[], (records.map serializeEntry).flatten, bufcap⟩, lsn, []⟩) k =
      refApply records k := by
  have hDcard : ∀ c ∈ caps,
      ((records.filter (fun e => e.op == 1)).map LogEntry.key).toFinset.card ≤ c := by
    intro c hc
    rw [List.card_toFinset]
    exact hcap c hc
  have hread : readAll ((records.map serializeEntry).flatten) = records := by
    have h := readAll_concat records [] (fun e he => (hrec e he).1) (Or.inl (by simp))
    rwa [List.append_nil] at h
  have hinit : scRecoverInv hash caps
      ((records.filter (fun e => e.op == 1)).map LogEntry.key)
      (caps.map (fun c => emptyLru c)) (fun _ => none) := by
    refine ⟨List.length_map _ _, ?_⟩
    intro i hi
    have hget : (caps.map (fun c => emptyLru c)).getD i (emptyLru 0) =
        (emptyLru (caps.getD i 0) : LruCache ByteStr ByteStr) := by
      rw [List.getD_eq_getElem?_getD, List.getD_eq_getElem?_getD, List.getElem?_map,
        List.getElem?_eq_getElem hi]
      rfl
    rw [hget]
    refine ⟨rfl, by simp [emptyLru], by simp [emptyLru], by simp [emptyLru], ?_⟩
    intro q
    show ((([] : List (Node ByteStr ByteStr)).find? (keyIs q)).map Node.value) =
      if hash q % caps.length = i then none else none
    simp
  have hkeysD : ∀ e ∈ records, (e.op = 1 ∨ e.op = 2) ∧ (e.op = 1 →
      e.key ∈ (records.filter (fun e => e.op == 1)).map LogEntry.key) := by
    intro e he
    refine ⟨(hrec e he).2, fun hop => ?_⟩
    exact List.mem_map.mpr ⟨e, List.mem_filter.mpr ⟨he, by simp [hop]⟩, rfl⟩
  have hfold := scRecover_fold_inv hash caps
    ((records.filter (fun e => e.op == 1)).map LogEntry.key) now records
    ⟨caps.map (fun c => emptyLru c), true,
      ⟨[], (records.map serializeEntry).flatten, bufcap⟩, lsn, []⟩
    (fun _ => none) hkeysD hDcard hinit
  intro k
  have hrecov : scRecoverFromDisk hash now
      (⟨caps.map (fun c => emptyLru c), true,
        ⟨[], (records.map serializeEntry).flatten, bufcap⟩, lsn, []⟩ : SCState) =
      records.foldl (scRecoverStep hash now)
        ⟨caps.map (fun c => emptyLru c), true,
          ⟨[], (records.map serializeEntry).flatten, bufcap⟩, lsn, []⟩ := by
    unfold scRecoverFromDisk
    rw [show (⟨caps.map (fun c => emptyLru c), true,
      ⟨[], (records.map serializeEntry).flatten, bufcap⟩, lsn, []⟩ : SCState).wal.file =
      (records.map serializeEntry).flatten from rfl, hread]
  rw [hrecov]
  obtain ⟨hlen', hsh'⟩ := hfold
  have hn : 0 < caps.length := List.length_pos.mpr hne
  obtain ⟨-, -, -, -, hlook⟩ := hsh' (hash k % caps.length) (Nat.mod_lt _ hn)
  show shardLookup ((records.foldl (scRecoverStep hash now)
      ⟨caps.map (fun c => emptyLru c), true,
        ⟨[], (records.map serializeEntry).flatten, bufcap⟩, lsn, []⟩).shards.getD
      (hash k % (records.foldl (scRecoverStep hash now)
        ⟨caps.map (fun c => emptyLru c), true,
          ⟨[], (records.map serializeEntry).flatten, bufcap⟩, lsn, []⟩).shards.length)
      (emptyLru 0)) k = refApply records k
  rw [show (records.foldl (scRecoverStep hash now)
      ⟨caps.map (fun c => emptyLru c), true,
        ⟨[], (records.map serializeEntry).flatten, bufcap⟩, lsn, []⟩).shards.length =
      caps.length from hlen', hlook k, if_pos rfl]
  rfl

/-- Witness for `c4_recovery_refines_reference_map`: one shard of capacity
2, WAL = [PUT "a"→"1"], all hypotheses discharged concretely. -/
theorem c4_witness :
    scMapping (fun _ => 0) (scRecoverFromDisk (fun _ => 0) 7
      ⟨[2].map (fun c => emptyLru c), true,
        ⟨[], ([⟨1, [97], [49], 0⟩].map serializeEntry).flatten, 1024⟩, 1, []⟩) [97] =
      refApply [⟨1, [97], [49], 0⟩] [97] :=
  c4_recovery_refines_reference_map (fun _ => 0) [2] [⟨1, [97], [49], 0⟩] 7 1024 1
    (by decide)
    (by intro e he; fin_cases he; exact ⟨by constructor <;> decide, by decide⟩)
    (by decide) [97]

/-! ## Claim C7 — group commit same-fate and ordering -/

theorem appendLoop_ok (outcome : Nat → Option Nat) (batch : List ByteStr) :
    ∀ (i : Nat) (file : ByteStr),
      (appendLoop outcome i batch file).2 = true ↔
        ∀ j < batch.length, outcome (i + j) = none := by
  induction batch with
  | nil => intro i file; simp [appendLoop]
  | cons d rest ih =>
    intro i file
    simp only [appendLoop]
    cases hoc : outcome i with
    | none =>
      rw [ih (i + 1) (file ++ d)]
      constructor
      · intro h j hj
        cases j with
        | zero => simpa using hoc
        | succ j' =>
          have hj' : j' < rest.length := by
            simpa [Nat.succ_lt_succ_iff] using hj
          have := h j' hj'
          rw [show i + 1 + j' = i + (j' + 1) from by omega] at this
          exact this
      · intro h j hj
        have := h (j + 1) (by simpa [Nat.succ_lt_succ_iff] using hj)
        rw [show i + (j + 1) = i + 1 + j from by omega] at this
        exact this
    | some p =>
      simp only [Bool.false_eq_true, false_iff]
      intro h
      have := h 0 (by simp)
      rw [Nat.add_zero, hoc] at this
      exact Option.some_ne_none p this

theorem appendLoop_file_extends (outcome : Nat → Option Nat)
    (batch : List ByteStr) :
    ∀ (i : Nat) (file : ByteStr),
      ∃ w rest, (appendLoop outcome i batch file).1 = file ++ w ∧
        w ++ rest = batch.flatten := by
  induction batch with
  | nil => intro i file; exact ⟨[], [], by simp [appendLoop], by simp⟩
  | cons d rest ih =>
    intro i file
    simp only [appendLoop]
    cases hoc : outcome i with
    | none =>
      obtain ⟨w, r, hw, hr⟩ := ih (i + 1) (file ++ d)
      refine ⟨d ++ w, r, by rw [hw, List.append_assoc], ?_⟩
      rw [List.append_assoc, hr, List.flatten_cons]
    | some p =>
      refine ⟨d.take p, d.drop p ++ rest.flatten, rfl, ?_⟩
      rw [← List.append_assoc, List.take_append_drop, List.flatten_cons]

theorem appendLoop_complete_file (outcome : Nat → Option Nat)
    (batch : List ByteStr) :
    ∀ (i : Nat) (file : ByteStr),
      (appendLoop outcome i batch file).2 = true →
        (appendLoop outcome i batch file).1 = file ++ batch.flatten := by
  induction batch with
  | nil => intro i file _; simp [appendLoop]
  | cons d rest ih =>
    intro i file hok
    simp only [appendLoop] at hok ⊢
    cases hoc : outcome i with
    | none =>
      rw [hoc] at hok
      rw [ih (i + 1) (file ++ d) hok, List.append_assoc, List.flatten_cons]
    | some p => rw [hoc] at hok; exact absurd hok (by simp)

/-- C7: group commit same-fate and ordering.  For every processed batch:
the callbacks are one per request; they all receive the same boolean — the
batch's single success flag; if any append throws (the oracle reports a
failure at an index inside the batch) or the sync throws, every request is
notified with failure, so partial success is never exposed; the bytes that
reach the file extend the old contents by a prefix of the requests' bytes
concatenated in batch order; and on success the file holds exactly that
full concatenation. -/
theorem c7_group_commit_same_fate (file : ByteStr) (batch : List ByteStr)
    (outcome : Nat → Option Nat) (syncOk : Bool) :
    ((processBatch file batch outcome syncOk).2.2.length = batch.length) ∧
    (∀ b ∈ (processBatch file batch outcome syncOk).2.2,
      b = (processBatch file batch outcome syncOk).2.1) ∧
    ((∃ i, i < batch.length ∧ outcome i ≠ none) →
      ∀ b ∈ (processBatch file batch outcome syncOk).2.2, b = false) ∧
    (syncOk = false →
      ∀ b ∈ (processBatch file batch outcome syncOk).2.2, b = false) ∧
    (∃ w rest, (processBatch file batch outcome syncOk).1 = file ++ w ∧
      w ++ rest = batch.flatten) ∧
    ((processBatch file batch outcome syncOk).2.1 = true →
      (processBatch file batch outcome syncOk).1 = file ++ batch.flatten) := by
  by_cases hemp : batch.isEmpty
  · have hb : batch = [] := List.isEmpty_iff.mp hemp
    subst hb
    simp only [processBatch, List.isEmpty_nil, if_pos]
    refine ⟨rfl, by simp, by simp, by simp, ⟨[], [], by simp, by simp⟩, by simp⟩
  · simp only [processBatch, if_neg hemp]
    refine ⟨by simp, ?_, ?_, ?_, ?_, ?_⟩
    · intro b hb
      rcases List.mem_map.mp hb with ⟨_, _, h⟩
      exact h.symm
    · rintro ⟨i, hi, hne⟩ b hb
      have hfail : (appendLoop outcome 0 batch file).2 = false := by
        rcases Bool.eq_false_or_eq_true (appendLoop outcome 0 batch file).2 with h | h
        · exact absurd (by simpa using (appendLoop_ok outcome batch 0 file).mp h i hi) hne
        · exact h
      rcases List.mem_map.mp hb with ⟨_, _, h⟩
      rw [← h, hfail, Bool.false_and]
    · intro hs b hb
      rcases List.mem_map.mp hb with ⟨_, _, h⟩
      rw [← h, hs, Bool.and_false]
    · exact appendLoop_file_extends outcome batch 0 file
    · intro hs
      have hok : (appendLoop outcome 0 batch file).2 = true :=
        (Bool.and_eq_true _ _).mp hs |>.1
      exact appendLoop_complete_file outcome batch 0 file hok

/-- Witness for `c7_group_commit_same_fate`: a two-request batch whose
second append throws after 0 bytes — the failure hypothesis is discharged
at index 1 — makes both callbacks report failure, and on the all-successful
oracle the same batch lands fully in the file. -/
theorem c7_witness :
    (processBatch [] [[1, 2], [3]]
        (fun i => if i = 1 then some 0 else none) true).2.2 = [false, false] ∧
    (processBatch [] [[1, 2], [3]] (fun _ => none) true).1 = [1, 2, 3] := by
  constructor
  · have hall := (c7_group_commit_same_fate [] [[1, 2], [3]]
        (fun i => if i = 1 then some 0 else none) true).2.2.1
      ⟨1, by decide, by decide⟩
    have h1 := hall ((processBatch [] [[1, 2], [3]]
        (fun i => if i = 1 then some 0 else none) true).2.2.getD 0 true)
      (by decide)
    decide
  · exact (c7_group_commit_same_fate [] [[1, 2], [3]] (fun _ => none)
      true).2.2.2.2.2 (by decide)

/-! ## Claim C9 — vector search: heap lemmas -/

theorem insertDesc_length (x : String × ℚ) (h : List (String × ℚ)) :
    (insertDesc x h).length = h.length + 1 := by
  induction h with
  | nil => rfl
  | cons y ys ih =>
    simp only [insertDesc]
    by_cases hlt : y.2 < x.2
    · rw [if_pos hlt]; simp
    · rw [if_neg hlt]; simp [ih]

theorem insertDesc_mem (x z : String × ℚ) (h : List (String × ℚ)) :
    z ∈ insertDesc x h ↔ z = x ∨ z ∈ h := by
  induction h with
  | nil => simp [insertDesc]
  | cons y ys ih =>
    simp only [insertDesc]
    by_cases hlt : y.2 < x.2
    · rw [if_pos hlt]; simp [List.mem_cons]
    · rw [if_neg hlt]; simp [List.mem_cons, ih]; tauto

theorem mem_of_mem_tail {α : Type} {z : α} {l : List α} (h : z ∈ l.tail) :
    z ∈ l := by
  cases l with
  | nil => exact absurd h (by simp)
  | cons a as => exact List.mem_cons_of_mem a h

theorem pairwise_tail {α : Type} {R : α → α → Prop} {l : List α}
    (h : l.Pairwise R) : l.tail.Pairwise R := by
  cases l with
  | nil => exact h
  | cons a as => exact (List.pairwise_cons.mp h).2

theorem insertDesc_sorted (x : String × ℚ) (h : List (String × ℚ))
    (hs : h.Pairwise (fun a b => b.2 ≤ a.2)) :
    (insertDesc x h).Pairwise (fun a b => b.2 ≤ a.2) := by
  induction h with
  | nil => simp [insertDesc]
  | cons y ys ih =>
    rw [List.pairwise_cons] at hs
    obtain ⟨hy, hys⟩ := hs
    simp only [insertDesc]
    by_cases hlt : y.2 < x.2
    · rw [if_pos hlt]
      refine List.Pairwise.cons ?_ (List.Pairwise.cons hy hys)
      intro z hz
      rcases List.mem_cons.mp hz with rfl | hz'
      · exact le_of_lt hlt
      · exact le_trans (hy z hz') (le_of_lt hlt)
    · rw [if_neg hlt]
      refine List.Pairwise.cons ?_ (ih hys)
      intro z hz
      rcases (insertDesc_mem x z ys).mp hz with rfl | hz'
      · exact le_of_not_lt hlt
      · exact hy z hz'

theorem hpush_mem (k : Nat) (h : List (String × ℚ)) (x z : String × ℚ)
    (hz : z ∈ hpush k h x) : z = x ∨ z ∈ h := by
  unfold hpush at hz
  by_cases hk : k < (insertDesc x h).length
  · rw [if_pos hk] at hz
    exact (insertDesc_mem x z h).mp (mem_of_mem_tail hz)
  · rw [if_neg hk] at hz
    exact (insertDesc_mem x z h).mp hz

theorem hpush_length (k : Nat) (h : List (String × ℚ)) (x : String × ℚ)
    (hk : h.length ≤ k) : (hpush k h x).length ≤ k := by
  unfold hpush
  by_cases hlt : k < (insertDesc x h).length
  · rw [if_pos hlt, List.length_tail, insertDesc_length]; omega
  · rw [if_neg hlt, insertDesc_length]
    rw [insertDesc_length] at hlt
    omega

theorem hpush_sorted (k : Nat) (h : List (String × ℚ)) (x : String × ℚ)
    (hs : h.Pairwise (fun a b => b.2 ≤ a.2)) :
    (hpush k h x).Pairwise (fun a b => b.2 ≤ a.2) := by
  unfold hpush
  by_cases hlt : k < (insertDesc x h).length
  · rw [if_pos hlt]; exact pairwise_tail (insertDesc_sorted x h hs)
  · rw [if_neg hlt]; exact insertDesc_sorted x h hs

theorem foldl_shardStep_length (query : List ℚ) (k : Nat) :
    ∀ (entries : List (String × List ℚ)) (acc : List (String × ℚ)),
      acc.length ≤ k → ((entries.foldl (shardStep query k) acc)).length ≤ k := by
  intro entries
  induction entries with
  | nil => intro acc h; exact h
  | cons e es ih =>
    intro acc h
    simp only [List.foldl_cons]
    refine ih _ ?_
    unfold shardStep
    by_cases hc : (e.2.isEmpty || e.2.length != query.length) = true
    · rw [if_pos hc]; exact h
    · rw [if_neg hc]; exact hpush_length k acc _ h

theorem foldl_shardStep_sorted (query : List ℚ) (k : Nat) :
    ∀ (entries : List (String × List ℚ)) (acc : List (String × ℚ)),
      acc.Pairwise (fun a b => b.2 ≤ a.2) →
      (entries.foldl (shardStep query k) acc).Pairwise (fun a b => b.2 ≤ a.2) := by
  intro entries
  induction entries with
  | nil => intro acc h; exact h
  | cons e es ih =>
    intro acc h
    simp only [List.foldl_cons]
    refine ih _ ?_
    unfold shardStep
    by_cases hc : (e.2.isEmpty || e.2.length != query.length) = true
    · rw [if_pos hc]; exact h
    · rw [if_neg hc]; exact hpush_sorted k acc _ h

theorem foldl_shardStep_mem (query : List ℚ) (k : Nat) :
    ∀ (entries : List (String × List ℚ)) (acc : List (String × ℚ))
      (z : String × ℚ), z ∈ entries.foldl (shardStep query k) acc →
      z ∈ acc ∨ ∃ e ∈ entries, e.2.isEmpty = false ∧
        e.2.length = query.length ∧ z = (e.1, sqDist query e.2) := by
  intro entries
  induction entries with
  | nil => intro acc z hz; exact Or.inl hz
  | cons e es ih =>
    intro acc z hz
    simp only [List.foldl_cons] at hz
    rcases ih (shardStep query k acc e) z hz with hacc | ⟨e', he', h1, h2, h3⟩
    · unfold shardStep at hacc
      by_cases hc : (e.2.isEmpty || e.2.length != query.length) = true
      · rw [if_pos hc] at hacc; exact Or.inl hacc
      · rw [if_neg hc] at hacc
        rcases hpush_mem k acc _ z hacc with rfl | hin
        · refine Or.inr ⟨e, List.mem_cons_self e es, ?_, ?_, rfl⟩
          · have h2 : ¬e.2 = [] ∧ e.2.length = query.length := by simpa using hc
            simpa using h2.1
          · have h2 : ¬e.2 = [] ∧ e.2.length = query.length := by simpa using hc
            exact h2.2
        · exact Or.inl hin
    · exact Or.inr ⟨e', List.mem_cons_of_mem e he', h1, h2, h3⟩

theorem foldl_hpush_length (k : Nat) :
    ∀ (l : List (String × ℚ)) (acc : List (String × ℚ)),
      acc.length ≤ k → (l.foldl (hpush k) acc).length ≤ k := by
  intro l
  induction l with
  | nil => intro acc h; exact h
  | cons x xs ih =>
    intro acc h
    simp only [List.foldl_cons]
    exact ih _ (hpush_length k acc x h)

theorem foldl_hpush_sorted (k : Nat) :
    ∀ (l : List (String × ℚ)) (acc : List (String × ℚ)),
      acc.Pairwise (fun a b => b.2 ≤ a.2) →
      (l.foldl (hpush k) acc).Pairwise (fun a b => b.2 ≤ a.2) := by
  intro l
  induction l with
  | nil => intro acc h; exact h
  | cons x xs ih =>
    intro acc h
    simp only [List.foldl_cons]
    exact ih _ (hpush_sorted k acc x h)

theorem foldl_hpush_mem (k : Nat) :
    ∀ (l : List (String × ℚ)) (acc : List (String × ℚ)) (z : String × ℚ),
      z ∈ l.foldl (hpush k) acc → z ∈ acc ∨ z ∈ l := by
  intro l
  induction l with
  | nil => intro acc z hz; exact Or.inl hz
  | cons x xs ih =>
    intro acc z hz
    simp only [List.foldl_cons] at hz
    rcases ih (hpush k acc x) z hz with hacc | hin
    · rcases hpush_mem k acc x z hacc with heq | h
      · exact Or.inr (by rw [heq]; exact List.mem_cons_self x xs)
      · exact Or.inl h
    · exact Or.inr (List.mem_cons_of_mem x hin)

theorem shardTopK_length (query : List ℚ) (k : Nat)
    (entries : List (String × List ℚ)) : (shardTopK query k entries).length ≤ k :=
  foldl_shardStep_length query k entries [] (by simp)

theorem shardTopK_mem (query : List ℚ) (k : Nat)
    (entries : List (String × List ℚ)) (z : String × ℚ)
    (hz : z ∈ shardTopK query k entries) :
    ∃ e ∈ entries, e.2.isEmpty = false ∧ e.2.length = query.length ∧
      z = (e.1, sqDist query e.2) := by
  rcases foldl_shardStep_mem query k entries [] z hz with h | h
  · exact absurd h (by simp)
  · exact h

theorem vsGlobal_fold_length (query : List ℚ) (k : Nat) :
    ∀ (shards : List (List (String × List ℚ))) (acc : List (String × ℚ)),
      acc.length ≤ k →
      (shards.foldl (fun g sh => (shardTopK query k sh).foldl (hpush k) g)
        acc).length ≤ k := by
  intro shards
  induction shards with
  | nil => intro acc h; exact h
  | cons sh rest ih =>
    intro acc h
    simp only [List.foldl_cons]
    exact ih _ (foldl_hpush_length k _ acc h)

theorem vsGlobal_fold_sorted (query : List ℚ) (k : Nat) :
    ∀ (shards : List (List (String × List ℚ))) (acc : List (String × ℚ)),
      acc.Pairwise (fun a b => b.2 ≤ a.2) →
      (shards.foldl (fun g sh => (shardTopK query k sh).foldl (hpush k) g)
        acc).Pairwise (fun a b => b.2 ≤ a.2) := by
  intro shards
  induction shards with
  | nil => intro acc h; exact h
  | cons sh rest ih =>
    intro acc h
    simp only [List.foldl_cons]
    exact ih _ (foldl_hpush_sorted k _ acc h)

theorem vsGlobal_fold_mem (query : List ℚ) (k : Nat) :
    ∀ (shards : List (List (String × List ℚ))) (acc : List (String × ℚ))
      (z : String × ℚ),
      z ∈ shards.foldl (fun g sh => (shardTopK query k sh).foldl (hpush k) g) acc →
      z ∈ acc ∨ ∃ sh ∈ shards, z ∈ shardTopK query k sh := by
  intro shards
  induction shards with
  | nil => intro acc z hz; exact Or.inl hz
  | cons sh rest ih =>
    intro acc z hz
    simp only [List.foldl_cons] at hz
    rcases ih _ z hz with hacc | ⟨sh', hsh', hz'⟩
    · rcases foldl_hpush_mem k _ acc z hacc with h | h
      · exact Or.inl h
      · exact Or.inr ⟨sh, List.mem_cons_self sh rest, h⟩
    · exact Or.inr ⟨sh', List.mem_cons_of_mem sh hsh', hz'⟩

/-- C9: vector search returns at most `k` keys; the returned keys are the
global heap's pairs in ascending distance order (their distances, read off
the drained-and-reversed global heap, are sorted ascending); every returned
pair originates from a stored entry whose decoded vector is non-empty and
matches the query's dimension (mismatched entries are skipped) at exactly
the reference squared Euclidean distance; and on spec scenario S6 —
u=[1,2,3], v=[1.1,2,3], w=[10,10,10], query [1,2,3], k=2 — the result is
"u" then "v". -/
theorem c9_vector_search_semantics :
    (∀ (query : List ℚ) (k : Nat) (shards : List (List (String × List ℚ))),
      (vectorSearch query k shards).length ≤ k) ∧
    (∀ (query : List ℚ) (k : Nat) (shards : List (List (String × List ℚ))),
      vectorSearch query k shards
        = ((vsGlobal query k shards).reverse).map Prod.fst ∧
      ((vsGlobal query k shards).reverse).Pairwise (fun a b => a.2 ≤ b.2)) ∧
    (∀ (query : List ℚ) (k : Nat) (shards : List (List (String × List ℚ)))
      (z : String × ℚ), z ∈ vsGlobal query k shards →
      ∃ sh ∈ shards, ∃ e ∈ sh, e.2.isEmpty = false ∧
        e.2.length = query.length ∧ z = (e.1, sqDist query e.2)) ∧
    vectorSearch [1, 2, 3] 2
        [[("u", [1, 2, 3]), ("v", [11/10, 2, 3]), ("w", [10, 10, 10])]]
      = ["u", "v"] := by
  refine ⟨?_, ?_, ?_, ?_⟩
  · intro query k shards
    unfold vectorSearch
    rw [List.length_reverse, List.length_map]
    exact vsGlobal_fold_length query k shards [] (by simp)
  · intro query k shards
    constructor
    · unfold vectorSearch
      rw [List.map_reverse]
    · rw [List.pairwise_reverse]
      exact vsGlobal_fold_sorted query k shards [] List.Pairwise.nil
  · intro query k shards z hz
    rcases vsGlobal_fold_mem query k shards [] z hz with h | ⟨sh, hsh, hz'⟩
    · exact absurd h (by simp)
    · rcases shardTopK_mem query k sh z hz' with ⟨e, he, h1, h2, h3⟩
      exact ⟨sh, hsh, e, he, h1, h2, h3⟩
  · norm_num [vectorSearch, vsGlobal, shardTopK, shardStep, hpush, insertDesc,
      sqDist, List.zip, List.zipWith, List.foldl]

/-- Witness for `c9_vector_search_semantics`: its concrete S6 scenario
conjunct, the search over the three stored vectors. -/
theorem c9_witness :
    vectorSearch [1, 2, 3] 2
        [[("u", [1, 2, 3]), ("v", [11/10, 2, 3]), ("w", [10, 10, 10])]]
      = ["u", "v"] :=
  c9_vector_search_semantics.2.2.2

end MinKV
